import Mathlib

/-!
Verification development for the prompt-layer repository
(`src/prompt_manager.py`).  The Python module is shallowly embedded:

* parsed YAML / JSON values become the inductive type `Json` (numbers are
  kept as exact decimals `m / 10^e`, the fragment that `repr(float)` /
  `json.dumps` actually prints for the values the module handles;
  exponent notation is outside the modelled fragment);
* dictionaries become association lists with first-match lookup;
* the usage-log file becomes its character content, lines separated by
  a newline character, exactly as `log_usage` appends them;
* fallible operations (`KeyError`, Jinja2 undefined-variable errors,
  `json.loads` failures, the metrics endpoint's catch-all handler)
  return `Option` / `Except` values.

Every definition is translated from the source file; doc strings point
back to the Python function being modelled.
-/

/-- Character strings, handled as plain character lists so that the
serialisation proofs can compute structurally. -/
abbrev Str := List Char

/-- A JSON / parsed-YAML value.  Numbers are exact decimals: `num m e`
denotes `m / 10^e`, printed with exactly `e` fractional digits, which is
the shape `repr` gives every int and every float the module manipulates
(floats outside the plain-decimal range print with an exponent in
Python; no claim exercises those). -/
inductive Json where
  | null : Json
  | bool (b : Bool) : Json
  | num (m : Int) (e : Nat) : Json
  | str (s : Str) : Json
  | arr (elts : List Json) : Json
  | obj (fields : List (Str × Json)) : Json

mutual
/-- Structural (Boolean) equality on `Json`. -/
def beqJson : Json → Json → Bool
  | .null, .null => true
  | .bool a, .bool b => a == b
  | .num m e, .num m' e' => m == m' && e == e'
  | .str s, .str t => s == t
  | .arr l, .arr l' => beqJsonSeq l l'
  | .obj l, .obj l' => beqJsonMembers l l'
  | _, _ => false

def beqJsonSeq : List Json → List Json → Bool
  | [], [] => true
  | a :: as, b :: bs => beqJson a b && beqJsonSeq as bs
  | _, _ => false

def beqJsonMembers : List (Str × Json) → List (Str × Json) → Bool
  | [], [] => true
  | (k, v) :: as, (k', v') :: bs => k == k' && beqJson v v' && beqJsonMembers as bs
  | _, _ => false
end

theorem beqJson_iff : ∀ a b : Json, beqJson a b = true ↔ a = b := by
  have key : ∀ n : Nat,
      (∀ a b : Json, sizeOf a ≤ n → (beqJson a b = true ↔ a = b)) ∧
      (∀ l l' : List Json, sizeOf l ≤ n → (beqJsonSeq l l' = true ↔ l = l')) ∧
      (∀ l l' : List (Str × Json), sizeOf l ≤ n → (beqJsonMembers l l' = true ↔ l = l')) := by
    intro n
    induction n using Nat.strong_induction_on with
    | _ n ih =>
      refine ⟨?_, ?_, ?_⟩
      · intro a b hle
        cases a with
        | null => cases b <;> simp [beqJson]
        | bool x => cases b <;> simp [beqJson]
        | num m e => cases b <;> simp [beqJson]
        | str s => cases b <;> simp [beqJson]
        | arr l =>
          have hsz : sizeOf l < n := by simp at hle; omega
          have hiff : ∀ l', beqJsonSeq l l' = true ↔ l = l' :=
            fun l' => (ih (sizeOf l) hsz).2.1 l l' (le_refl _)
          cases b <;> simp [beqJson, hiff]
        | obj l =>
          have hsz : sizeOf l < n := by simp at hle; omega
          have hiff : ∀ l', beqJsonMembers l l' = true ↔ l = l' :=
            fun l' => (ih (sizeOf l) hsz).2.2 l l' (le_refl _)
          cases b <;> simp [beqJson, hiff]
      · intro l l' hle
        cases l with
        | nil => cases l' <;> simp [beqJsonSeq]
        | cons a as =>
          cases l' with
          | nil => simp [beqJsonSeq]
          | cons b bs =>
            have h1 : sizeOf a < n := by
              have : sizeOf (a :: as) = 1 + sizeOf a + sizeOf as := by simp
              omega
            have h2 : sizeOf as < n := by
              have : sizeOf (a :: as) = 1 + sizeOf a + sizeOf as := by simp
              omega
            simp only [beqJsonSeq, Bool.and_eq_true, List.cons.injEq]
            rw [(ih (sizeOf a) h1).1 a b (le_refl _),
                (ih (sizeOf as) h2).2.1 as bs (le_refl _)]
      · intro l l' hle
        cases l with
        | nil => cases l' <;> simp [beqJsonMembers]
        | cons kv as =>
          cases l' with
          | nil => simp [beqJsonMembers]
          | cons kv' bs =>
            obtain ⟨k, v⟩ := kv
            obtain ⟨k', v'⟩ := kv'
            have h1 : sizeOf v < n := by simp at hle; omega
            have h2 : sizeOf as < n := by simp at hle; omega
            have hiffv : ∀ v', beqJson v v' = true ↔ v = v' :=
              fun v' => (ih (sizeOf v) h1).1 v v' (le_refl _)
            have hiffas : ∀ bs, beqJsonMembers as bs = true ↔ as = bs :=
              fun bs => (ih (sizeOf as) h2).2.2 as bs (le_refl _)
            simp only [beqJsonMembers, Bool.and_eq_true, List.cons.injEq, Prod.mk.injEq,
              beq_iff_eq, hiffv, hiffas]
  intro a b
  exact (key (sizeOf a)).1 a b (le_refl _)

instance : DecidableEq Json := fun a b =>
  decidable_of_iff (beqJson a b = true) (beqJson_iff a b)

/-- Python truthiness (`bool(x)`) on the embedded values. -/
def truthy : Json → Bool
  | .null => false
  | .bool b => b
  | .num m _ => m != 0
  | .str s => !s.isEmpty
  | .arr l => !l.isEmpty
  | .obj l => !l.isEmpty

/-- `d.get(k)`: first binding of key `k` in an association list. -/
def dictGet (d : List (Str × Json)) (k : Str) : Option Json :=
  (d.find? (fun p => p.1 = k)).map (fun p => p.2)

/-- Python `d[k] = v`: replace the binding if the key is present
(association lists standing for dicts hold each key once), otherwise
append it. -/
def dictSet (d : List (Str × Json)) (k : Str) (v : Json) : List (Str × Json) :=
  if (dictGet d k).isSome then
    d.map (fun p => if p.1 = k then (k, v) else p)
  else
    d ++ [(k, v)]

/-- `d.setdefault(k, v)`. -/
def setdefault (d : List (Str × Json)) (k : Str) (v : Json) : List (Str × Json) :=
  if (dictGet d k).isSome then d else d ++ [(k, v)]

/-- The character for a single decimal digit. -/
def digitCh (d : Nat) : Char := Char.ofNat (d + 48)

/-- Numeric value of a decimal digit character. -/
def digitVal (c : Char) : Nat := c.toNat - 48

/-- Little-endian decimal digits of `n` (empty for zero), with enough
fuel; structural in the fuel so the kernel can evaluate it. -/
def digsLE : Nat → Nat → List Nat
  | 0, _ => []
  | _ + 1, 0 => []
  | fuel + 1, n => n % 10 :: digsLE fuel (n / 10)

/-- The number denoted by a little-endian digit list. -/
def valLE : List Nat → Nat
  | [] => 0
  | d :: ds => d + 10 * valLE ds

/-- Decimal digits of a natural number, most significant first
(`"0"` for zero), as printed by Python's `str` / `repr`. -/
def natDigits (n : Nat) : Str :=
  if n = 0 then ['0'] else ((digsLE n n).map digitCh).reverse

/-- Left-pad a digit string with `'0'` up to length `w`. -/
def padZero (w : Nat) (s : Str) : Str :=
  List.replicate (w - s.length) '0' ++ s

/-- The unsigned part of `repr` of the decimal `n / 10^e`: the digits of
`n`, padded so that `e` of them sit after the decimal point; no point at
all when `e = 0` (an int). -/
def numCore (n : Nat) (e : Nat) : Str :=
  let ds := padZero (e + 1) (natDigits n)
  if e = 0 then ds
  else ds.take (ds.length - e) ++ '.' :: ds.drop (ds.length - e)

/-- `repr` of the decimal `m / 10^e`: the unsigned core of `|m|` with a
leading minus sign for negative `m`. -/
def numRepr (m : Int) (e : Nat) : Str :=
  if m < 0 then '-' :: numCore m.natAbs e else numCore m.natAbs e

mutual
/-- Python `repr` on embedded values (used by `str` for containers).
String quoting inside `repr` ignores embedded quote escaping — no claim
puts quotes, containers or other exotica in a version / identifier. -/
def pyRepr : Json → Str
  | .null => ['N', 'o', 'n', 'e']
  | .bool true => ['T', 'r', 'u', 'e']
  | .bool false => ['F', 'a', 'l', 's', 'e']
  | .num m e => numRepr m e
  | .str s => '\'' :: s ++ ['\'']
  | .arr l => '[' :: pyReprSeq l ++ [']']
  | .obj l => '\x7b' :: pyReprMembers l ++ ['\x7d']

/-- Comma-joined `repr`s of a list's elements. -/
def pyReprSeq : List Json → Str
  | [] => []
  | [j] => pyRepr j
  | j :: js => pyRepr j ++ ',' :: ' ' :: pyReprSeq js

/-- Comma-joined `repr`s of a dict's items. -/
def pyReprMembers : List (Str × Json) → Str
  | [] => []
  | [(k, v)] => '\'' :: k ++ '\'' :: ':' :: ' ' :: pyRepr v
  | (k, v) :: kvs => '\'' :: k ++ '\'' :: ':' :: ' ' :: pyRepr v ++ ',' :: ' ' :: pyReprMembers kvs
end

/-- Python `str(x)`: like `repr` except that strings print verbatim. -/
def pyStr : Json → Str
  | .str s => s
  | j => pyRepr j

/-- The rational value of the decimal `m / 10^e`. -/
def decToRat (m : Int) (e : Nat) : ℚ := (m : ℚ) / (10 : ℚ) ^ e

example : truthy (Json.str []) = false := by decide
example : dictGet [(['a'], Json.null), (['b'], Json.bool true)] ['b'] = some (Json.bool true) := by decide
example : numRepr 100 1 = ['1', '0', '.', '0'] := by decide
example : numRepr (-5) 0 = ['-', '5'] := by decide
example : numRepr 5 2 = ['0', '.', '0', '5'] := by decide
example : pyStr (Json.num 10 1) = ['1', '.', '0'] := by decide
example : pyStr Json.null = "None".toList := by decide
example : decToRat 200 1 = 20 := by norm_num [decToRat]

/-- Value of a big-endian digit string, as accumulated by a
left-to-right parse. -/
def parseDigitsVal (s : Str) : Nat :=
  s.foldl (fun a c => a * 10 + digitVal c) 0

theorem digsLE_all_lt : ∀ fuel n, ∀ d ∈ digsLE fuel n, d < 10 := by
  intro fuel
  induction fuel with
  | zero => intro n d hd; simp [digsLE] at hd
  | succ f ih =>
    intro n d hd
    cases n with
    | zero => simp [digsLE] at hd
    | succ k =>
      simp only [digsLE, List.mem_cons] at hd
      rcases hd with h | h
      · subst h; exact Nat.mod_lt _ (by omega)
      · exact ih _ _ h

theorem valLE_digsLE : ∀ fuel n, n ≤ fuel → valLE (digsLE fuel n) = n := by
  intro fuel
  induction fuel with
  | zero => intro n h; interval_cases n; simp [digsLE, valLE]
  | succ f ih =>
    intro n h
    cases n with
    | zero => simp [digsLE, valLE]
    | succ k =>
      have hdiv : (k + 1) / 10 ≤ f := by
        have := Nat.div_lt_self (Nat.succ_pos k) (by omega : 1 < 10)
        omega
      simp only [digsLE, valLE, ih _ hdiv]
      omega

theorem digitVal_digitCh {d : Nat} (h : d < 10) : digitVal (digitCh d) = d := by
  interval_cases d <;> decide

theorem isDigit_digitCh {d : Nat} (h : d < 10) : (digitCh d).isDigit = true := by
  interval_cases d <;> decide

theorem natDigits_all_digits (n : Nat) : ∀ c ∈ natDigits n, c.isDigit = true := by
  intro c hc
  unfold natDigits at hc
  by_cases h : n = 0
  · simp [h] at hc; subst hc; decide
  · simp [h, List.mem_reverse, List.mem_map] at hc
    obtain ⟨d, hd, rfl⟩ := hc
    exact isDigit_digitCh (digsLE_all_lt _ _ _ hd)

theorem natDigits_ne_nil (n : Nat) : natDigits n ≠ [] := by
  unfold natDigits
  by_cases h : n = 0
  · simp [h]
  · simp [h]
    cases n with
    | zero => omega
    | succ k => simp [digsLE]

theorem parseDigitsVal_natDigits (n : Nat) : parseDigitsVal (natDigits n) = n := by
  by_cases h : n = 0
  · subst h; decide
  · unfold natDigits
    simp only [h, if_false]
    unfold parseDigitsVal
    rw [List.foldl_reverse]
    have : ∀ s : List Nat, (∀ d ∈ s, d < 10) →
        (s.map digitCh).foldr (fun c a => a * 10 + digitVal c) 0 = valLE s := by
      intro s
      induction s with
      | nil => intro _; simp [valLE]
      | cons d ds ihs =>
        intro hall
        simp only [List.map_cons, List.foldr_cons, valLE]
        rw [ihs (fun x hx => hall x (List.mem_cons_of_mem _ hx)),
          digitVal_digitCh (hall d (List.mem_cons_self _ _))]
        omega
    rw [this _ (digsLE_all_lt n n), valLE_digsLE n n (le_refl n)]

theorem parseDigitsVal_zeros (k : Nat) (s : Str) :
    parseDigitsVal (List.replicate k '0' ++ s) = parseDigitsVal s := by
  unfold parseDigitsVal
  rw [List.foldl_append]
  have : List.foldl (fun a c => a * 10 + digitVal c) 0 (List.replicate k '0') = 0 := by
    induction k with
    | zero => rfl
    | succ m ihm =>
      have h0 : digitVal '0' = 0 := by decide
      simp only [List.replicate_succ, List.foldl_cons, h0]
      simpa using ihm
  rw [this]

theorem padZero_all_digits {s : Str} (h : ∀ c ∈ s, c.isDigit = true) (w : Nat) :
    ∀ c ∈ padZero w s, c.isDigit = true := by
  intro c hc
  unfold padZero at hc
  rcases List.mem_append.mp hc with h1 | h2
  · have := List.eq_of_mem_replicate h1; subst this; decide
  · exact h c h2

theorem parseDigitsVal_padZero (w : Nat) (n : Nat) :
    parseDigitsVal (padZero w (natDigits n)) = n := by
  unfold padZero
  rw [parseDigitsVal_zeros, parseDigitsVal_natDigits]

theorem padZero_length (w : Nat) (s : Str) :
    (padZero w s).length = max w s.length := by
  unfold padZero
  simp [List.length_append, List.length_replicate]
  omega

theorem padZero_ne_nil {s : Str} (h : s ≠ []) (w : Nat) : padZero w s ≠ [] := by
  unfold padZero
  intro hcontra
  rcases List.append_eq_nil.mp hcontra with ⟨_, h2⟩
  exact h h2

/-- Lower-case hexadecimal digit character. -/
def hexCh (d : Nat) : Char := if d < 10 then digitCh d else Char.ofNat (d - 10 + 97)

/-- `json.dumps` escaping of one character (`ensure_ascii=False`): only
the quote, the backslash and control characters are escaped; control
characters get their short escape when one exists, `\u00XX` otherwise. -/
def escChar (c : Char) : Str :=
  if c = '"' then ['\\', '"']
  else if c = '\\' then ['\\', '\\']
  else if c = '\n' then ['\\', 'n']
  else if c = '\t' then ['\\', 't']
  else if c = '\r' then ['\\', 'r']
  else if c.toNat = 8 then ['\\', 'b']
  else if c.toNat = 12 then ['\\', 'f']
  else if c.toNat < 32 then ['\\', 'u', '0', '0', hexCh (c.toNat / 16), hexCh (c.toNat % 16)]
  else [c]

/-- `json.dumps` escaping of a whole string body. -/
def escStr : Str → Str
  | [] => []
  | c :: cs => escChar c ++ escStr cs

mutual
/-- `json.dumps(x, ensure_ascii=False)` with the default separators
`", "` and `": "`, on the decimal fragment of numbers. -/
def dumps : Json → Str
  | .num m e => numRepr m e
  | .str s => '"' :: escStr s ++ ['"']
  | .bool false => ['f', 'a', 'l', 's', 'e']
  | .bool true => ['t', 'r', 'u', 'e']
  | .null => ['n', 'u', 'l', 'l']
  | .arr l => '[' :: dumpsSeq l ++ [']']
  | .obj l => '\x7b' :: dumpsMembers l ++ ['\x7d']

/-- Array elements, joined by `", "`. -/
def dumpsSeq : List Json → Str
  | [] => []
  | [j] => dumps j
  | j :: js => dumps j ++ ',' :: ' ' :: dumpsSeq js

/-- Object members `"key": value`, joined by `", "`. -/
def dumpsMembers : List (Str × Json) → Str
  | [] => []
  | [(k, v)] => '"' :: escStr k ++ '"' :: ':' :: ' ' :: dumps v
  | (k, v) :: kvs =>
      '"' :: escStr k ++ '"' :: ':' :: ' ' :: dumps v ++ ',' :: ' ' :: dumpsMembers kvs
end

/-- JSON whitespace. -/
def isWs (c : Char) : Bool := c = ' ' || c = '\t' || c = '\n' || c = '\r'

/-- Drop leading JSON whitespace. -/
def skipWs (s : Str) : Str := s.dropWhile isWs

/-- Value of one hexadecimal digit character, if it is one. -/
def hexVal (c : Char) : Option Nat :=
  if c.isDigit then some (digitVal c)
  else if 'a' ≤ c && c ≤ 'f' then some (c.toNat - 87)
  else if 'A' ≤ c && c ≤ 'F' then some (c.toNat - 55)
  else none

/-- Parse a JSON string body (after the opening quote) up to and over
the closing quote, undoing the escapes `json.dumps` can produce (plus
`\/` and general `\uXXXX`, which `json.loads` accepts). -/
def parseStrBody : Str → Option (Str × Str)
  | [] => none
  | c :: cs =>
    if c = '"' then some ([], cs)
    else if c = '\\' then
      match cs with
      | [] => none
      | e :: cs' =>
        if e = '"' then (parseStrBody cs').map (fun p => ('"' :: p.1, p.2))
        else if e = '\\' then (parseStrBody cs').map (fun p => ('\\' :: p.1, p.2))
        else if e = '/' then (parseStrBody cs').map (fun p => ('/' :: p.1, p.2))
        else if e = 'n' then (parseStrBody cs').map (fun p => ('\n' :: p.1, p.2))
        else if e = 't' then (parseStrBody cs').map (fun p => ('\t' :: p.1, p.2))
        else if e = 'r' then (parseStrBody cs').map (fun p => ('\r' :: p.1, p.2))
        else if e = 'b' then (parseStrBody cs').map (fun p => (Char.ofNat 8 :: p.1, p.2))
        else if e = 'f' then (parseStrBody cs').map (fun p => (Char.ofNat 12 :: p.1, p.2))
        else if e = 'u' then
          match cs' with
          | h1 :: h2 :: h3 :: h4 :: rest =>
            match hexVal h1, hexVal h2, hexVal h3, hexVal h4 with
            | some a, some b, some c2, some d =>
              (parseStrBody rest).map
                (fun p => (Char.ofNat (((a * 16 + b) * 16 + c2) * 16 + d) :: p.1, p.2))
            | _, _, _, _ => none
          | _ => none
        else none
    else (parseStrBody cs).map (fun p => (c :: p.1, p.2))

/-- Parse the unsigned part of a JSON number: integer digits, then
optionally a dot and fractional digits.  Returns the digits' value, the
count of fractional digits, and the remaining input. -/
def parseNumCore (s1 : Str) : Option ((Nat × Nat) × Str) :=
  if s1.takeWhile Char.isDigit = [] then none
  else if (s1.dropWhile Char.isDigit).head? = some '.' then
    if (s1.dropWhile Char.isDigit).tail.takeWhile Char.isDigit = [] then none
    else
      some ((parseDigitsVal (s1.takeWhile Char.isDigit ++
              (s1.dropWhile Char.isDigit).tail.takeWhile Char.isDigit),
             ((s1.dropWhile Char.isDigit).tail.takeWhile Char.isDigit).length),
            (s1.dropWhile Char.isDigit).tail.dropWhile Char.isDigit)
  else some ((parseDigitsVal (s1.takeWhile Char.isDigit), 0), s1.dropWhile Char.isDigit)

def parseNum (s : Str) : Option ((Int × Nat) × Str) :=
  if s.head? = some '-' then
    (parseNumCore s.tail).map (fun p => ((-(p.1.1 : Int), p.1.2), p.2))
  else
    (parseNumCore s).map (fun p => (((p.1.1 : Int), p.1.2), p.2))

mutual
/-- Fuel-indexed recursive-descent JSON value parser (the fuel only has
to dominate the nesting structure; `loads` passes more than enough). -/
def parseVal : Nat → Str → Option (Json × Str)
  | 0, _ => none
  | f + 1, s =>
    match s with
    | [] => none
    | c :: rest =>
      if c = 'n' then
        match rest with
        | 'u' :: 'l' :: 'l' :: r => some (.null, r)
        | _ => none
      else if c = 't' then
        match rest with
        | 'r' :: 'u' :: 'e' :: r => some (.bool true, r)
        | _ => none
      else if c = 'f' then
        match rest with
        | 'a' :: 'l' :: 's' :: 'e' :: r => some (.bool false, r)
        | _ => none
      else if c = '"' then (parseStrBody rest).map (fun p => (.str p.1, p.2))
      else if c = '[' then
        let r := skipWs rest
        if r.head? = some ']' then some (.arr [], r.tail)
        else (parseElems f r).map (fun p => (.arr p.1, p.2))
      else if c = '\x7b' then
        let r := skipWs rest
        if r.head? = some '\x7d' then some (.obj [], r.tail)
        else (parseMembers f r).map (fun p => (.obj p.1, p.2))
      else (parseNum (c :: rest)).map (fun p => (.num p.1.1 p.1.2, p.2))

/-- Parse `value (`, ` value)* ]` inside an array literal. -/
def parseElems : Nat → Str → Option (List Json × Str)
  | 0, _ => none
  | f + 1, s =>
    match parseVal f s with
    | none => none
    | some (v, r) =>
      match skipWs r with
      | ',' :: r2 => (parseElems f (skipWs r2)).map (fun p => (v :: p.1, p.2))
      | ']' :: r2 => some ([v], r2)
      | _ => none

/-- Parse `"key": value (`, "key": value)* \x7d` inside an object literal. -/
def parseMembers : Nat → Str → Option (List (Str × Json) × Str)
  | 0, _ => none
  | f + 1, s =>
    match s with
    | '"' :: rest =>
      match parseStrBody rest with
      | none => none
      | some (k, r) =>
        match skipWs r with
        | ':' :: r2 =>
          match parseVal f (skipWs r2) with
          | none => none
          | some (v, r3) =>
            match skipWs r3 with
            | ',' :: r4 => (parseMembers f (skipWs r4)).map (fun p => ((k, v) :: p.1, p.2))
            | '\x7d' :: r4 => some ([(k, v)], r4)
            | _ => none
        | _ => none
    | _ => none
end

/-- `json.loads`: parse one complete JSON document (whitespace allowed
around it); any trailing garbage is an error. -/
def loads (s : Str) : Option Json :=
  let s1 := skipWs s
  match parseVal (2 * s1.length + 2) s1 with
  | some (j, r) => if skipWs r = [] then some j else none
  | none => none

example : loads ("null".toList) = some Json.null := by decide
example : loads ("not a record".toList) = none := by decide
example : loads ("[1, 2.5]".toList) = some (Json.arr [Json.num 1 0, Json.num 25 1]) := by decide
example : loads ("\x7b\"a\": \"b\"\x7d".toList) = some (Json.obj [(['a'], Json.str ['b'])]) := by decide
example : loads (dumps (Json.obj [(['a'], Json.num (-5) 1)])) = some (Json.obj [(['a'], Json.num (-5) 1)]) := by decide

theorem takeWhile_append_all {p : Char → Bool} :
    ∀ {A : Str} (B : Str), (∀ a ∈ A, p a = true) →
      (A ++ B).takeWhile p = A ++ B.takeWhile p := by
  intro A
  induction A with
  | nil => intro B _; simp
  | cons a as ih =>
    intro B h
    have ha : p a = true := h a (List.mem_cons_self _ _)
    simp only [List.cons_append, List.takeWhile_cons, ha, if_true]
    rw [ih B (fun x hx => h x (List.mem_cons_of_mem _ hx))]

theorem dropWhile_append_all {p : Char → Bool} :
    ∀ {A : Str} (B : Str), (∀ a ∈ A, p a = true) →
      (A ++ B).dropWhile p = B.dropWhile p := by
  intro A
  induction A with
  | nil => intro B _; simp
  | cons a as ih =>
    intro B h
    have ha : p a = true := h a (List.mem_cons_self _ _)
    simp only [List.cons_append, List.dropWhile_cons, ha, if_true]
    exact ih B (fun x hx => h x (List.mem_cons_of_mem _ hx))

/-- A string may legally follow a serialised number: it is empty or
starts with something that cannot extend the number (no digit, no dot).
All separator positions in `dumps` output satisfy this. -/
def numBoundary : Str → Prop
  | [] => True
  | c :: _ => c.isDigit = false ∧ c ≠ '.'

theorem takeWhile_digit_boundary {B : Str} (hB : numBoundary B) :
    B.takeWhile Char.isDigit = [] := by
  cases B with
  | nil => simp
  | cons c t => simp [List.takeWhile_cons, hB.1]

theorem dropWhile_digit_boundary {B : Str} (hB : numBoundary B) :
    B.dropWhile Char.isDigit = B := by
  cases B with
  | nil => simp
  | cons c t => simp [List.dropWhile_cons, hB.1]

theorem hexVal_hexCh {d : Nat} (h : d < 16) : hexVal (hexCh d) = some d := by
  interval_cases d <;> decide

theorem psb_quote (X : Str) : parseStrBody ('"' :: X) = some ([], X) := by
  rw [parseStrBody.eq_def]; rfl

theorem psb_esc_quote (X : Str) :
    parseStrBody ('\\' :: '"' :: X) = (parseStrBody X).map (fun p => ('"' :: p.1, p.2)) := by
  rw [parseStrBody.eq_def]; rfl

theorem psb_esc_back (X : Str) :
    parseStrBody ('\\' :: '\\' :: X) = (parseStrBody X).map (fun p => ('\\' :: p.1, p.2)) := by
  rw [parseStrBody.eq_def]; rfl

theorem psb_esc_n (X : Str) :
    parseStrBody ('\\' :: 'n' :: X) = (parseStrBody X).map (fun p => ('\n' :: p.1, p.2)) := by
  rw [parseStrBody.eq_def]; rfl

theorem psb_esc_t (X : Str) :
    parseStrBody ('\\' :: 't' :: X) = (parseStrBody X).map (fun p => ('\t' :: p.1, p.2)) := by
  rw [parseStrBody.eq_def]; rfl

theorem psb_esc_r (X : Str) :
    parseStrBody ('\\' :: 'r' :: X) = (parseStrBody X).map (fun p => ('\r' :: p.1, p.2)) := by
  rw [parseStrBody.eq_def]; rfl

theorem psb_esc_b (X : Str) :
    parseStrBody ('\\' :: 'b' :: X) = (parseStrBody X).map (fun p => (Char.ofNat 8 :: p.1, p.2)) := by
  rw [parseStrBody.eq_def]; rfl

theorem psb_esc_f (X : Str) :
    parseStrBody ('\\' :: 'f' :: X) = (parseStrBody X).map (fun p => (Char.ofNat 12 :: p.1, p.2)) := by
  rw [parseStrBody.eq_def]; rfl

theorem psb_u (h1 h2 h3 h4 : Char) (a b c2 d : Nat)
    (e1 : hexVal h1 = some a) (e2 : hexVal h2 = some b)
    (e3 : hexVal h3 = some c2) (e4 : hexVal h4 = some d) (X : Str) :
    parseStrBody ('\\' :: 'u' :: h1 :: h2 :: h3 :: h4 :: X) =
      (parseStrBody X).map
        (fun p => (Char.ofNat (((a * 16 + b) * 16 + c2) * 16 + d) :: p.1, p.2)) := by
  rw [parseStrBody.eq_def]
  simp only [e1, e2, e3, e4]
  rfl

theorem psb_other (c : Char) (h1 : c ≠ '"') (h2 : c ≠ '\\') (X : Str) :
    parseStrBody (c :: X) = (parseStrBody X).map (fun p => (c :: p.1, p.2)) := by
  rw [parseStrBody.eq_def]
  simp only [if_neg h1, if_neg h2]

theorem parseStrBody_escStr : ∀ (s rest : Str),
    parseStrBody (escStr s ++ '"' :: rest) = some (s, rest) := by
  intro s
  induction s with
  | nil => intro rest; simpa [escStr] using psb_quote rest
  | cons c cs ih =>
    intro rest
    show parseStrBody (escChar c ++ escStr cs ++ '"' :: rest) = _
    unfold escChar
    by_cases h1 : c = '"'
    · subst h1; simp [psb_esc_quote, ih]
    by_cases h2 : c = '\\'
    · subst h2; simp [h1, psb_esc_back, ih]
    by_cases h3 : c = '\n'
    · subst h3; simp [h1, h2, psb_esc_n, ih]
    by_cases h4 : c = '\t'
    · subst h4; simp [h1, h2, h3, psb_esc_t, ih]
    by_cases h5 : c = '\r'
    · subst h5; simp [h1, h2, h3, h4, psb_esc_r, ih]
    by_cases h6 : c.toNat = 8
    · have hc : Char.ofNat 8 = c := by rw [← h6, Char.ofNat_toNat]
      simp only [h1, h2, h3, h4, h5, h6, if_false, if_true, ite_false, ite_true]
      simp [psb_esc_b, ih]
      exact hc
    by_cases h7 : c.toNat = 12
    · have hc : Char.ofNat 12 = c := by rw [← h7, Char.ofNat_toNat]
      simp only [h1, h2, h3, h4, h5, h6, h7, if_false, if_true, ite_false, ite_true]
      simp [psb_esc_f, ih]
      exact hc
    by_cases h8 : c.toNat < 32
    · simp only [h1, h2, h3, h4, h5, h6, h7, h8, if_false, if_true, ite_false, ite_true]
      have hhi : c.toNat / 16 < 16 := by omega
      have hlo : c.toNat % 16 < 16 := Nat.mod_lt _ (by omega)
      have hv0 : hexVal '0' = some 0 := by decide
      simp only [List.cons_append, List.nil_append]
      rw [psb_u '0' '0' _ _ 0 0 _ _ hv0 hv0 (hexVal_hexCh hhi) (hexVal_hexCh hlo)]
      have harith : ((0 * 16 + 0) * 16 + c.toNat / 16) * 16 + c.toNat % 16 = c.toNat := by
        omega
      rw [harith, Char.ofNat_toNat, ih]
      rfl
    · simp only [h1, h2, h3, h4, h5, h6, h7, h8, if_false, ite_false]
      simp only [List.cons_append, List.nil_append, List.append_nil]
      rw [psb_other c h1 h2, ih]
      rfl

theorem isDigit_ne_dash {c : Char} (h : c.isDigit = true) : c ≠ '-' := by
  intro hc; subst hc; simp [Char.isDigit] at h

theorem numBoundary_head_ne_dot {rest : Str} (h : numBoundary rest) :
    rest.head? ≠ some '.' := by
  cases rest with
  | nil => simp
  | cons c t =>
    simp only [List.head?_cons, ne_eq, Option.some.injEq]
    exact h.2


theorem isDigit_ne_dot {c : Char} (h : c.isDigit = true) : c ≠ '.' := by
  intro hc; subst hc; simp [Char.isDigit] at h

theorem parseNumCore_numCore (n e : Nat) (rest : Str) (hrest : numBoundary rest) :
    parseNumCore (numCore n e ++ rest) = some ((n, e), rest) := by
  have hndall : ∀ c ∈ natDigits n, c.isDigit = true := natDigits_all_digits _
  have hdall : ∀ c ∈ padZero (e + 1) (natDigits n), c.isDigit = true :=
    padZero_all_digits hndall _
  have hne : padZero (e + 1) (natDigits n) ≠ [] :=
    padZero_ne_nil (natDigits_ne_nil _) _
  set ds := padZero (e + 1) (natDigits n) with hds
  have hlen : e + 1 ≤ ds.length := by
    rw [hds, padZero_length]; omega
  have hval : parseDigitsVal ds = n := parseDigitsVal_padZero _ _
  by_cases he : e = 0
  · subst he
    have hcore : numCore n 0 = ds := by simp [numCore, hds]
    rw [hcore]
    unfold parseNumCore
    rw [takeWhile_append_all rest hdall, takeWhile_digit_boundary hrest, List.append_nil,
      dropWhile_append_all rest hdall, dropWhile_digit_boundary hrest]
    rw [if_neg hne, if_neg (numBoundary_head_ne_dot hrest), hval]
  · have hcore : numCore n e = ds.take (ds.length - e) ++ '.' :: ds.drop (ds.length - e) := by
      simp [numCore, hds, he]
    have htake_all : ∀ c ∈ ds.take (ds.length - e), c.isDigit = true :=
      fun c hc => hdall c (List.take_subset _ _ hc)
    have hdrop_all : ∀ c ∈ ds.drop (ds.length - e), c.isDigit = true :=
      fun c hc => hdall c (List.drop_subset _ _ hc)
    have hdrop_len : (ds.drop (ds.length - e)).length = e := by
      rw [List.length_drop]; omega
    have htake_ne : ds.take (ds.length - e) ≠ [] := by
      intro hcontra
      have := congrArg List.length hcontra
      rw [List.length_take] at this
      simp at this
      omega
    have hdrop_ne : ds.drop (ds.length - e) ≠ [] := by
      intro hcontra
      rw [hcontra] at hdrop_len
      simp at hdrop_len
      omega
    rw [hcore, List.append_assoc, List.cons_append]
    have htw : (ds.take (ds.length - e) ++ '.' :: (ds.drop (ds.length - e) ++ rest)).takeWhile
        Char.isDigit = ds.take (ds.length - e) := by
      rw [takeWhile_append_all _ htake_all]
      simp [List.takeWhile_cons]
    have hdw : (ds.take (ds.length - e) ++ '.' :: (ds.drop (ds.length - e) ++ rest)).dropWhile
        Char.isDigit = '.' :: (ds.drop (ds.length - e) ++ rest) := by
      rw [dropWhile_append_all _ htake_all]
      simp [List.dropWhile_cons]
    unfold parseNumCore
    rw [htw, hdw]
    rw [if_neg htake_ne]
    simp only [List.head?_cons, List.tail_cons, if_pos rfl]
    rw [takeWhile_append_all rest hdrop_all, takeWhile_digit_boundary hrest, List.append_nil,
      dropWhile_append_all rest hdrop_all, dropWhile_digit_boundary hrest]
    rw [if_neg hdrop_ne, List.take_append_drop, hval, hdrop_len]
    simp

theorem numCore_head_digit (n e : Nat) :
    ∃ d t, numCore n e = d :: t ∧ d.isDigit = true := by
  have hndall : ∀ c ∈ natDigits n, c.isDigit = true := natDigits_all_digits _
  have hdall : ∀ c ∈ padZero (e + 1) (natDigits n), c.isDigit = true :=
    padZero_all_digits hndall _
  have hne : padZero (e + 1) (natDigits n) ≠ [] :=
    padZero_ne_nil (natDigits_ne_nil _) _
  set ds := padZero (e + 1) (natDigits n) with hds
  have hlen : e + 1 ≤ ds.length := by
    rw [hds, padZero_length]; omega
  by_cases he : e = 0
  · subst he
    cases hds' : ds with
    | nil => exact absurd hds' hne
    | cons d t =>
      have hc0 : numCore n 0 = ds := by rw [hds]; simp [numCore]
      refine ⟨d, t, by rw [hc0, hds'], ?_⟩
      apply hdall; rw [hds']; exact List.mem_cons_self _ _
  · have htake_ne : ds.take (ds.length - e) ≠ [] := by
      intro hcontra
      have := congrArg List.length hcontra
      rw [List.length_take] at this
      simp at this
      omega
    cases hds' : ds.take (ds.length - e) with
    | nil => exact absurd hds' htake_ne
    | cons d t =>
      refine ⟨d, t ++ '.' :: ds.drop (ds.length - e), ?_, ?_⟩
      · simp [numCore, hds.symm, he, hds']
      · apply hdall
        have : d ∈ ds.take (ds.length - e) := by rw [hds']; exact List.mem_cons_self _ _
        exact List.take_subset _ _ this

theorem parseNum_numRepr (m : Int) (e : Nat) (rest : Str) (hrest : numBoundary rest) :
    parseNum (numRepr m e ++ rest) = some ((m, e), rest) := by
  by_cases hm : m < 0
  · have : numRepr m e = '-' :: numCore m.natAbs e := by simp [numRepr, hm]
    rw [this, List.cons_append]
    unfold parseNum
    rw [if_pos (by rfl : ('-' :: (numCore m.natAbs e ++ rest)).head? = some '-')]
    simp only [List.tail_cons]
    rw [parseNumCore_numCore _ _ _ hrest]
    simp only [Option.map_some', Option.some.injEq, Prod.mk.injEq]
    exact ⟨⟨by omega, trivial⟩, trivial⟩
  · have : numRepr m e = numCore m.natAbs e := by simp [numRepr, hm]
    rw [this]
    obtain ⟨d, t, hdt, hdd⟩ := numCore_head_digit m.natAbs e
    unfold parseNum
    rw [if_neg (by
      rw [hdt, List.cons_append]
      simp only [List.head?_cons, ne_eq, Option.some.injEq]
      exact isDigit_ne_dash hdd)]
    rw [parseNumCore_numCore _ _ _ hrest]
    simp only [Option.map_some', Option.some.injEq, Prod.mk.injEq]
    exact ⟨⟨by omega, trivial⟩, trivial⟩

mutual
/-- Fuel bound needed by `parseVal` to parse a serialised value. -/
def jsize : Json → Nat
  | .null => 1
  | .bool _ => 1
  | .num _ _ => 1
  | .str _ => 1
  | .arr l => 1 + jsizeSeq l
  | .obj l => 1 + jsizeMembers l

/-- Fuel bound needed by `parseElems` for a serialised element list. -/
def jsizeSeq : List Json → Nat
  | [] => 1
  | j :: js => 1 + jsize j + jsizeSeq js

/-- Fuel bound needed by `parseMembers` for serialised members. -/
def jsizeMembers : List (Str × Json) → Nat
  | [] => 1
  | (_, v) :: kvs => 1 + jsize v + jsizeMembers kvs
end

theorem isDigit_not_special {c : Char} (h : c.isDigit = true) :
    isWs c = false ∧ c ≠ ']' ∧ c ≠ '\x7d' ∧ c ≠ 'n' ∧ c ≠ 't' ∧ c ≠ 'f' ∧
      c ≠ '"' ∧ c ≠ '[' ∧ c ≠ '\x7b' := by
  have hb : 48 ≤ c.toNat ∧ c.toNat ≤ 57 := by
    simpa [Char.isDigit, Char.le_def, Char.toNat] using h
  refine ⟨?_, ?_, ?_, ?_, ?_, ?_, ?_, ?_, ?_⟩
  · simp only [isWs, Bool.or_eq_false_iff, decide_eq_false_iff_not]
    refine ⟨⟨⟨?_, ?_⟩, ?_⟩, ?_⟩ <;> (intro hc; subst hc; simp at hb)
  all_goals (intro hc; subst hc; simp at hb)

theorem dash_not_special :
    isWs '-' = false ∧ ('-' : Char) ≠ ']' ∧ ('-' : Char) ≠ '\x7d' ∧ ('-' : Char) ≠ 'n' ∧
      ('-' : Char) ≠ 't' ∧ ('-' : Char) ≠ 'f' ∧ ('-' : Char) ≠ '"' ∧ ('-' : Char) ≠ '[' ∧
      ('-' : Char) ≠ '\x7b' := by decide

/-- The first character of any serialised value: never whitespace, never
a closing bracket. -/
theorem dumps_head : ∀ j : Json, ∃ c t, dumps j = c :: t ∧ isWs c = false ∧
    c ≠ ']' ∧ c ≠ '\x7d' := by
  intro j
  cases j with
  | null =>
    refine ⟨'n', _, rfl, ?_⟩
    decide
  | bool b =>
    cases b with
    | false =>
      refine ⟨'f', _, rfl, ?_⟩
      decide
    | true =>
      refine ⟨'t', _, rfl, ?_⟩
      decide
  | str s =>
    refine ⟨'"', _, rfl, ?_⟩
    decide
  | arr l =>
    refine ⟨'[', _, rfl, ?_⟩
    decide
  | obj l =>
    refine ⟨'\x7b', _, rfl, ?_⟩
    decide
  | num m e =>
    show ∃ c t, numRepr m e = c :: t ∧ _
    by_cases hm : m < 0
    · refine ⟨'-', numCore m.natAbs e, by simp [numRepr, hm], by decide, by decide, by decide⟩
    · obtain ⟨d, t, hdt, hdd⟩ := numCore_head_digit m.natAbs e
      obtain ⟨h1, h2, h3, _⟩ := isDigit_not_special hdd
      exact ⟨d, t, by simp [numRepr, hm, hdt], h1, h2, h3⟩

theorem skipWs_cons_of {c : Char} (h : isWs c = false) (t : Str) :
    skipWs (c :: t) = c :: t := by
  simp [skipWs, List.dropWhile_cons, h]

theorem skipWs_space (t : Str) : skipWs (' ' :: t) = skipWs t := by
  simp [skipWs, List.dropWhile_cons, isWs]

/-- `skipWs` does not eat into a serialised value. -/
theorem skipWs_dumps (j : Json) (X : Str) : skipWs (dumps j ++ X) = dumps j ++ X := by
  obtain ⟨c, t, hct, hws, _, _⟩ := dumps_head j
  rw [hct, List.cons_append, skipWs_cons_of hws]

/-- A nonempty serialised element list starts with its first value. -/
theorem dumpsSeq_decomp (v : Json) (vs : List Json) :
    ∃ T, dumpsSeq (v :: vs) = dumps v ++ T := by
  cases vs with
  | nil => exact ⟨[], by simp [dumpsSeq]⟩
  | cons w ws => exact ⟨_, rfl⟩

theorem numBoundary_bracket (rest : Str) : numBoundary (']' :: rest) := by
  exact ⟨by decide, by decide⟩

theorem numBoundary_brace (rest : Str) : numBoundary ('\x7d' :: rest) := by
  exact ⟨by decide, by decide⟩

theorem numBoundary_comma (rest : Str) : numBoundary (',' :: rest) := by
  exact ⟨by decide, by decide⟩

theorem parse_dumps : ∀ fuel : Nat,
    (∀ (j : Json) (rest : Str), jsize j ≤ fuel → numBoundary rest →
      parseVal fuel (dumps j ++ rest) = some (j, rest)) ∧
    (∀ (l : List Json) (rest : Str), l ≠ [] → jsizeSeq l ≤ fuel →
      parseElems fuel (dumpsSeq l ++ ']' :: rest) = some (l, rest)) ∧
    (∀ (l : List (Str × Json)) (rest : Str), l ≠ [] → jsizeMembers l ≤ fuel →
      parseMembers fuel (dumpsMembers l ++ '\x7d' :: rest) = some (l, rest)) := by
  intro fuel
  induction fuel using Nat.strong_induction_on with
  | _ fuel ih =>
    refine ⟨?_, ?_, ?_⟩
    · intro j rest hsz hrest
      cases fuel with
      | zero => exfalso; cases j <;> simp [jsize] at hsz
      | succ f =>
        cases j with
        | null => simp only [dumps, List.cons_append, List.nil_append]; simp [parseVal]
        | bool b =>
          cases b with
          | true => simp only [dumps, List.cons_append, List.nil_append]; simp [parseVal]
          | false => simp only [dumps, List.cons_append, List.nil_append]; simp [parseVal]
        | str s =>
          simp only [dumps, List.cons_append, List.append_assoc, List.singleton_append]
          simp [parseVal, parseStrBody_escStr]
        | num m e =>
          have hshape : ∃ c t, numRepr m e = c :: t ∧ c ≠ 'n' ∧ c ≠ 't' ∧ c ≠ 'f' ∧
              c ≠ '"' ∧ c ≠ '[' ∧ c ≠ '\x7b' := by
            by_cases hm : m < 0
            · exact ⟨'-', numCore m.natAbs e, by simp [numRepr, hm], by decide, by decide,
                by decide, by decide, by decide, by decide⟩
            · obtain ⟨d, t, hdt, hdd⟩ := numCore_head_digit m.natAbs e
              obtain ⟨_, _, _, h4, h5, h6, h7, h8, h9⟩ := isDigit_not_special hdd
              exact ⟨d, t, by simp [numRepr, hm, hdt], h4, h5, h6, h7, h8, h9⟩
          obtain ⟨c, t, hct, h1, h2, h3, h4, h5, h6⟩ := hshape
          have hdnum : dumps (.num m e) = numRepr m e := by simp [dumps]
          rw [hdnum, hct, List.cons_append]
          simp only [parseVal]
          rw [if_neg h1, if_neg h2, if_neg h3, if_neg h4, if_neg h5, if_neg h6]
          rw [← List.cons_append, ← hct, parseNum_numRepr m e rest hrest]
          rfl
        | arr l =>
          cases l with
          | nil =>
            simp only [dumps, dumpsSeq, List.cons_append, List.nil_append]
            simp [parseVal, skipWs_cons_of, skipWs, List.dropWhile_cons, isWs]
          | cons v vs =>
            have hszseq : jsizeSeq (v :: vs) ≤ f := by
              simp only [jsize] at hsz; omega
            obtain ⟨T, hT⟩ := dumpsSeq_decomp v vs
            obtain ⟨c, t, hct, hws, hbr, _⟩ := dumps_head v
            have hdarr : dumps (.arr (v :: vs)) = '[' :: (dumpsSeq (v :: vs) ++ [']']) := by
              simp [dumps]
            rw [hdarr]
            have hrw : ('[' :: (dumpsSeq (v :: vs) ++ [']'])) ++ rest =
                '[' :: (dumpsSeq (v :: vs) ++ ']' :: rest) := by
              simp [List.cons_append, List.append_assoc]
            rw [hrw]
            simp only [parseVal]
            have hskip : skipWs (dumpsSeq (v :: vs) ++ ']' :: rest) =
                dumpsSeq (v :: vs) ++ ']' :: rest := by
              rw [hT, List.append_assoc, hct, List.cons_append, skipWs_cons_of hws]
            rw [hskip]
            have hhead : (dumpsSeq (v :: vs) ++ ']' :: rest).head? ≠ some ']' := by
              rw [hT, List.append_assoc, hct, List.cons_append]
              simp only [List.head?_cons, ne_eq, Option.some.injEq]
              exact hbr
            rw [if_neg hhead]
            rw [(ih f (by omega)).2.1 (v :: vs) rest (by simp) hszseq]
            rfl
        | obj l =>
          cases l with
          | nil =>
            simp only [dumps, dumpsMembers, List.cons_append, List.nil_append]
            simp [parseVal, skipWs_cons_of, skipWs, List.dropWhile_cons, isWs]
          | cons kv kvs =>
            have hszmem : jsizeMembers (kv :: kvs) ≤ f := by
              simp only [jsize] at hsz; omega
            have hdobj : dumps (.obj (kv :: kvs)) =
                '\x7b' :: (dumpsMembers (kv :: kvs) ++ ['\x7d']) := by
              simp [dumps]
            rw [hdobj]
            have hrw : ('\x7b' :: (dumpsMembers (kv :: kvs) ++ ['\x7d'])) ++ rest =
                '\x7b' :: (dumpsMembers (kv :: kvs) ++ '\x7d' :: rest) := by
              simp [List.cons_append, List.append_assoc]
            rw [hrw]
            simp only [parseVal]
            obtain ⟨k, v⟩ := kv
            have hdm : ∃ T, dumpsMembers ((k, v) :: kvs) = '"' :: T := by
              cases kvs with
              | nil => exact ⟨_, rfl⟩
              | cons kv' kvs' => exact ⟨_, rfl⟩
            obtain ⟨T, hT⟩ := hdm
            have hskip : skipWs (dumpsMembers ((k, v) :: kvs) ++ '\x7d' :: rest) =
                dumpsMembers ((k, v) :: kvs) ++ '\x7d' :: rest := by
              rw [hT, List.cons_append, skipWs_cons_of (by decide)]
            rw [hskip]
            have hhead : (dumpsMembers ((k, v) :: kvs) ++ '\x7d' :: rest).head? ≠
                some '\x7d' := by
              rw [hT, List.cons_append]
              simp only [List.head?_cons, ne_eq, Option.some.injEq]
              decide
            rw [if_neg hhead]
            rw [(ih f (by omega)).2.2 ((k, v) :: kvs) rest (by simp) hszmem]
            rfl
    · intro l rest hne hsz
      cases fuel with
      | zero => exfalso; cases l <;> simp [jsizeSeq] at hsz
      | succ f =>
        cases l with
        | nil => exact absurd rfl hne
        | cons v vs =>
          have hszv : jsize v ≤ f := by simp only [jsizeSeq] at hsz; omega
          have hszvs : jsizeSeq vs ≤ f := by simp only [jsizeSeq] at hsz; omega
          cases vs with
          | nil =>
            have hd1 : dumpsSeq [v] = dumps v := by simp [dumpsSeq]
            rw [hd1]
            simp only [parseElems]
            rw [(ih f (by omega)).1 v (']' :: rest) hszv (numBoundary_bracket rest)]
            simp [skipWs_cons_of (show isWs ']' = false from by decide)]
          | cons w ws =>
            have hd2 : dumpsSeq (v :: w :: ws) = dumps v ++ ',' :: ' ' :: dumpsSeq (w :: ws) := by
              simp [dumpsSeq]
            rw [hd2]
            simp only [parseElems]
            have hrw : (dumps v ++ ',' :: ' ' :: dumpsSeq (w :: ws)) ++ ']' :: rest =
                dumps v ++ ',' :: ' ' :: (dumpsSeq (w :: ws) ++ ']' :: rest) := by
              simp [List.append_assoc]
            rw [hrw]
            rw [(ih f (by omega)).1 v _ hszv (numBoundary_comma _)]
            obtain ⟨T, hT⟩ := dumpsSeq_decomp w ws
            obtain ⟨c, t, hct, hws, _, _⟩ := dumps_head w
            have hskip : skipWs (dumpsSeq (w :: ws) ++ ']' :: rest) =
                dumpsSeq (w :: ws) ++ ']' :: rest := by
              rw [hT, List.append_assoc, hct, List.cons_append, skipWs_cons_of hws]
            simp [skipWs_cons_of (show isWs ',' = false from by decide), skipWs_space, hskip,
              (ih f (by omega)).2.1 (w :: ws) rest (by simp) hszvs]
    · intro l rest hne hsz
      cases fuel with
      | zero => exfalso; cases l <;> simp [jsizeMembers] at hsz
      | succ f =>
        cases l with
        | nil => exact absurd rfl hne
        | cons kv kvs =>
          obtain ⟨k, v⟩ := kv
          have hszv : jsize v ≤ f := by simp only [jsizeMembers] at hsz; omega
          have hszkvs : jsizeMembers kvs ≤ f := by simp only [jsizeMembers] at hsz; omega
          cases kvs with
          | nil =>
            have hd1 : dumpsMembers [(k, v)] ++ '\x7d' :: rest =
                '"' :: (escStr k ++ '"' :: (':' :: ' ' :: (dumps v ++ '\x7d' :: rest))) := by
              simp [dumpsMembers, List.cons_append, List.append_assoc]
            rw [hd1]
            simp only [parseMembers]
            rw [parseStrBody_escStr]
            simp [skipWs_cons_of (show isWs ':' = false from by decide), skipWs_space,
              skipWs_dumps v ('\x7d' :: rest),
              (ih f (by omega)).1 v _ hszv (numBoundary_brace rest),
              skipWs_cons_of (show isWs '\x7d' = false from by decide)]
          | cons kv' kvs' =>
            have hd2 : dumpsMembers ((k, v) :: kv' :: kvs') ++ '\x7d' :: rest =
                '"' :: (escStr k ++ '"' :: (':' :: ' ' :: (dumps v ++
                  ',' :: ' ' :: (dumpsMembers (kv' :: kvs') ++ '\x7d' :: rest)))) := by
              simp [dumpsMembers, List.cons_append, List.append_assoc]
            rw [hd2]
            simp only [parseMembers]
            rw [parseStrBody_escStr]
            have hdm : ∃ T, dumpsMembers (kv' :: kvs') = '"' :: T := by
              obtain ⟨k', v'⟩ := kv'
              cases kvs' with
              | nil => exact ⟨_, rfl⟩
              | cons x xs => exact ⟨_, rfl⟩
            obtain ⟨T, hT⟩ := hdm
            have hskip2 : skipWs (dumpsMembers (kv' :: kvs') ++ '\x7d' :: rest) =
                dumpsMembers (kv' :: kvs') ++ '\x7d' :: rest := by
              rw [hT, List.cons_append, skipWs_cons_of (show isWs '"' = false from by decide)]
            simp [skipWs_cons_of (show isWs ':' = false from by decide), skipWs_space,
              skipWs_dumps v _,
              (ih f (by omega)).1 v _ hszv (numBoundary_comma _),
              skipWs_cons_of (show isWs ',' = false from by decide), hskip2,
              (ih f (by omega)).2.2 (kv' :: kvs') rest (by simp) hszkvs]

theorem dumps_ne_nil (j : Json) : dumps j ≠ [] := by
  obtain ⟨c, t, hct, _⟩ := dumps_head j
  rw [hct]; simp

theorem dumps_length_pos (j : Json) : 1 ≤ (dumps j).length := by
  obtain ⟨c, t, hct, _⟩ := dumps_head j
  rw [hct]; simp

theorem length_dumps_arr (l : List Json) :
    (dumps (.arr l)).length = 2 + (dumpsSeq l).length := by
  have : dumps (.arr l) = '[' :: dumpsSeq l ++ [']'] := by simp [dumps]
  rw [this]
  simp [List.length_append]
  omega

theorem length_dumps_obj (l : List (Str × Json)) :
    (dumps (.obj l)).length = 2 + (dumpsMembers l).length := by
  have : dumps (.obj l) = '\x7b' :: dumpsMembers l ++ ['\x7d'] := by simp [dumps]
  rw [this]
  simp [List.length_append]
  omega

/-- The parser fuel bound is dominated by the serialised length. -/
theorem jsize_le_dumps : ∀ j : Json, jsize j + 1 ≤ 2 * (dumps j).length := by
  have key : ∀ n : Nat,
      (∀ j : Json, sizeOf j ≤ n → jsize j + 1 ≤ 2 * (dumps j).length) ∧
      (∀ l : List Json, sizeOf l ≤ n → jsizeSeq l ≤ 2 * (dumpsSeq l).length + 1) ∧
      (∀ l : List (Str × Json), sizeOf l ≤ n →
        jsizeMembers l ≤ 2 * (dumpsMembers l).length + 1) := by
    intro n
    induction n using Nat.strong_induction_on with
    | _ n ih =>
      refine ⟨?_, ?_, ?_⟩
      · intro j hle
        cases j with
        | null => simp [jsize, dumps]
        | bool b => cases b <;> simp [jsize, dumps]
        | num m e => have := dumps_length_pos (.num m e); simp [jsize]; omega
        | str s => have := dumps_length_pos (.str s); simp [jsize]; omega
        | arr l =>
          have hsz : sizeOf l < n := by simp at hle; omega
          have hl := (ih (sizeOf l) hsz).2.1 l (le_refl _)
          rw [length_dumps_arr]
          simp only [jsize]
          omega
        | obj l =>
          have hsz : sizeOf l < n := by simp at hle; omega
          have hl := (ih (sizeOf l) hsz).2.2 l (le_refl _)
          rw [length_dumps_obj]
          simp only [jsize]
          omega
      · intro l hle
        cases l with
        | nil => simp [jsizeSeq, dumpsSeq]
        | cons j js =>
          have h1 : sizeOf j < n := by simp at hle; omega
          have h2 : sizeOf js < n := by simp at hle; omega
          have hj := (ih (sizeOf j) h1).1 j (le_refl _)
          have hjs := (ih (sizeOf js) h2).2.1 js (le_refl _)
          cases js with
          | nil =>
            have : dumpsSeq [j] = dumps j := by simp [dumpsSeq]
            rw [this]
            simp only [jsizeSeq]
            omega
          | cons w ws =>
            have : dumpsSeq (j :: w :: ws) = dumps j ++ ',' :: ' ' :: dumpsSeq (w :: ws) := by
              simp [dumpsSeq]
            rw [this]
            simp only [jsizeSeq, List.length_append, List.length_cons]
            simp only [jsizeSeq] at hjs
            omega
      · intro l hle
        cases l with
        | nil => simp [jsizeMembers, dumpsMembers]
        | cons kv kvs =>
          obtain ⟨k, v⟩ := kv
          have h1 : sizeOf v < n := by simp at hle; omega
          have h2 : sizeOf kvs < n := by simp at hle; omega
          have hv := (ih (sizeOf v) h1).1 v (le_refl _)
          have hkvs := (ih (sizeOf kvs) h2).2.2 kvs (le_refl _)
          cases kvs with
          | nil =>
            have : dumpsMembers [(k, v)] = '"' :: escStr k ++ '"' :: ':' :: ' ' :: dumps v := by
              simp [dumpsMembers]
            rw [this]
            simp only [jsizeMembers, List.length_append, List.length_cons]
            omega
          | cons kv' kvs' =>
            have : dumpsMembers ((k, v) :: kv' :: kvs') =
                '"' :: escStr k ++ '"' :: ':' :: ' ' :: dumps v ++
                  ',' :: ' ' :: dumpsMembers (kv' :: kvs') := by
              simp [dumpsMembers]
            rw [this]
            simp only [jsizeMembers, List.length_append, List.length_cons]
            simp only [jsizeMembers] at hkvs
            omega
  intro j
  exact (key (sizeOf j)).1 j (le_refl _)

/-- `json.loads` inverts `json.dumps` on every embedded value. -/
theorem loads_dumps (j : Json) : loads (dumps j) = some j := by
  have hskip : skipWs (dumps j) = dumps j := by
    have := skipWs_dumps j []
    simpa using this
  simp only [loads, hskip]
  have hfuel : jsize j ≤ 2 * (dumps j).length + 2 := by
    have := jsize_le_dumps j
    omega
  have := (parse_dumps (2 * (dumps j).length + 2)).1 j [] hfuel trivial
  rw [List.append_nil] at this
  rw [this]
  simp [skipWs]

theorem newline_notin_escChar (c : Char) : '\n' ∉ escChar c := by
  unfold escChar
  by_cases h1 : c = '"'
  · simp [h1]
  by_cases h2 : c = '\\'
  · simp [h1, h2]
  by_cases h3 : c = '\n'
  · simp [h1, h2, h3]
  by_cases h4 : c = '\t'
  · simp [h1, h2, h3, h4]
  by_cases h5 : c = '\r'
  · simp [h1, h2, h3, h4, h5]
  by_cases h6 : c.toNat = 8
  · simp [h1, h2, h3, h4, h5, h6]
  by_cases h7 : c.toNat = 12
  · simp [h1, h2, h3, h4, h5, h6, h7]
  by_cases h8 : c.toNat < 32
  · simp only [h1, h2, h3, h4, h5, h6, h7, h8, if_false, if_true, ite_false, ite_true]
    have hhi : c.toNat / 16 < 16 := by omega
    have hlo : c.toNat % 16 < 16 := Nat.mod_lt _ (by omega)
    have hx : ∀ d : Nat, d < 16 → hexCh d ≠ '\n' := by
      intro d hd; interval_cases d <;> decide
    simp only [List.mem_cons, List.not_mem_nil, or_false]
    push_neg
    refine ⟨by decide, by decide, by decide, by decide, ?_, ?_⟩
    · exact fun hc => hx _ hhi hc.symm
    · exact fun hc => hx _ hlo hc.symm
  · simp only [h1, h2, h3, h4, h5, h6, h7, h8, if_false, ite_false]
    simp only [List.mem_singleton]
    intro hc
    rw [← hc] at h8
    simp [Char.toNat, UInt32.size] at h8

theorem newline_notin_escStr (s : Str) : '\n' ∉ escStr s := by
  induction s with
  | nil => simp [escStr]
  | cons c cs ih =>
    simp only [escStr, List.mem_append]
    rintro (h | h)
    · exact newline_notin_escChar c h
    · exact ih h

theorem isDigit_ne_newline {c : Char} (h : c.isDigit = true) : c ≠ '\n' := by
  intro hc; subst hc; simp [Char.isDigit] at h

theorem newline_notin_numRepr (m : Int) (e : Nat) : '\n' ∉ numRepr m e := by
  have hcore : '\n' ∉ numCore m.natAbs e := by
    have hdall : ∀ c ∈ padZero (e + 1) (natDigits m.natAbs), c.isDigit = true :=
      padZero_all_digits (natDigits_all_digits _) _
    unfold numCore
    by_cases he : e = 0
    · subst he
      rw [if_pos rfl]
      intro hmem
      exact isDigit_ne_newline (hdall _ hmem) rfl
    · rw [if_neg he]
      intro hmem
      rcases List.mem_append.mp hmem with h | h
      · exact isDigit_ne_newline (hdall _ (List.take_subset _ _ h)) rfl
      · rcases List.mem_cons.mp h with h | h
        · exact absurd h.symm (by decide)
        · exact isDigit_ne_newline (hdall _ (List.drop_subset _ _ h)) rfl
  unfold numRepr
  by_cases hm : m < 0
  · simp only [hm, if_true, ite_true]
    intro hmem
    rcases List.mem_cons.mp hmem with h | h
    · exact absurd h (by decide)
    · exact hcore h
  · simp only [hm, if_false, ite_false]
    exact hcore

/-- Serialised values never contain a raw newline: every line the
logger appends is one self-contained record. -/
theorem newline_notin_dumps : ∀ j : Json, '\n' ∉ dumps j := by
  have key : ∀ n : Nat,
      (∀ j : Json, sizeOf j ≤ n → '\n' ∉ dumps j) ∧
      (∀ l : List Json, sizeOf l ≤ n → '\n' ∉ dumpsSeq l) ∧
      (∀ l : List (Str × Json), sizeOf l ≤ n → '\n' ∉ dumpsMembers l) := by
    intro n
    induction n using Nat.strong_induction_on with
    | _ n ih =>
      refine ⟨?_, ?_, ?_⟩
      · intro j hle
        cases j with
        | null => simp [dumps]
        | bool b => cases b <;> simp [dumps]
        | num m e =>
          have : dumps (.num m e) = numRepr m e := by simp [dumps]
          rw [this]; exact newline_notin_numRepr m e
        | str s =>
          have : dumps (.str s) = '"' :: escStr s ++ ['"'] := by simp [dumps]
          rw [this]
          simp only [List.cons_append, List.mem_cons, List.mem_append, List.mem_singleton]
          push_neg
          exact ⟨by decide, newline_notin_escStr s, by decide⟩
        | arr l =>
          have hsz : sizeOf l < n := by simp at hle; omega
          have hl := (ih (sizeOf l) hsz).2.1 l (le_refl _)
          have : dumps (.arr l) = '[' :: dumpsSeq l ++ [']'] := by simp [dumps]
          rw [this]
          simp only [List.cons_append, List.mem_cons, List.mem_append, List.mem_singleton]
          push_neg
          exact ⟨by decide, hl, by decide⟩
        | obj l =>
          have hsz : sizeOf l < n := by simp at hle; omega
          have hl := (ih (sizeOf l) hsz).2.2 l (le_refl _)
          have : dumps (.obj l) = '\x7b' :: dumpsMembers l ++ ['\x7d'] := by simp [dumps]
          rw [this]
          simp only [List.cons_append, List.mem_cons, List.mem_append, List.mem_singleton]
          push_neg
          exact ⟨by decide, hl, by decide⟩
      · intro l hle
        cases l with
        | nil => simp [dumpsSeq]
        | cons j js =>
          have h1 : sizeOf j < n := by simp at hle; omega
          have h2 : sizeOf js < n := by simp at hle; omega
          have hj := (ih (sizeOf j) h1).1 j (le_refl _)
          have hjs := (ih (sizeOf js) h2).2.1 js (le_refl _)
          cases js with
          | nil => simpa [dumpsSeq] using hj
          | cons w ws =>
            have : dumpsSeq (j :: w :: ws) = dumps j ++ ',' :: ' ' :: dumpsSeq (w :: ws) := by
              simp [dumpsSeq]
            rw [this]
            simp only [List.mem_append, List.mem_cons]
            push_neg
            exact ⟨hj, by decide, by decide, hjs⟩
      · intro l hle
        cases l with
        | nil => simp [dumpsMembers]
        | cons kv kvs =>
          obtain ⟨k, v⟩ := kv
          have h1 : sizeOf v < n := by simp at hle; omega
          have h2 : sizeOf kvs < n := by simp at hle; omega
          have hv := (ih (sizeOf v) h1).1 v (le_refl _)
          have hkvs := (ih (sizeOf kvs) h2).2.2 kvs (le_refl _)
          have hkey : '\n' ∉ escStr k := newline_notin_escStr k
          cases kvs with
          | nil =>
            have : dumpsMembers [(k, v)] =
                '"' :: (escStr k ++ '"' :: ':' :: ' ' :: dumps v) := by
              simp [dumpsMembers, List.cons_append]
            rw [this]
            simp only [List.mem_cons, List.mem_append]
            push_neg
            refine ⟨by decide, hkey, by decide, by decide, by decide, hv⟩
          | cons kv' kvs' =>
            have : dumpsMembers ((k, v) :: kv' :: kvs') =
                '"' :: (escStr k ++ '"' :: ':' :: ' ' :: (dumps v ++
                  ',' :: ' ' :: dumpsMembers (kv' :: kvs'))) := by
              simp [dumpsMembers, List.cons_append, List.append_assoc]
            rw [this]
            simp only [List.mem_cons, List.mem_append]
            push_neg
            refine ⟨by decide, hkey, by decide, by decide, by decide, hv, by decide, by decide,
              hkvs⟩
  intro j
  exact (key (sizeOf j)).1 j (le_refl _)

/-- Python `str.strip` whitespace class (the characters the module can
meet in a log line). -/
def isSpaceCh (c : Char) : Bool :=
  c = ' ' || c = '\t' || c = '\n' || c = '\r' || c = '\x0b' || c = '\x0c'

/-- `line.strip()`. -/
def pyStrip (s : Str) : Str :=
  ((s.dropWhile isSpaceCh).reverse.dropWhile isSpaceCh).reverse

/-- Not a newline (the line separator of the usage-log file). -/
def notNl (c : Char) : Bool := c != '\n'

/-- Fuel-indexed splitting of a file's content into lines, dropping
each terminating newline (`for line in f` followed by `strip` makes the
terminator irrelevant); structural in the fuel so it computes. -/
def splitLinesF : Nat → Str → List Str
  | _, [] => []
  | 0, _ :: _ => []
  | fuel + 1, s =>
    match s.dropWhile notNl with
    | [] => [s.takeWhile notNl]
    | _ :: r => s.takeWhile notNl :: splitLinesF fuel r

/-- The lines of a file's content. -/
def splitLines (s : Str) : List Str := splitLinesF s.length s

theorem length_dropWhile_le (p : Char → Bool) (l : Str) :
    (l.dropWhile p).length ≤ l.length := by
  induction l with
  | nil => simp
  | cons c t ih =>
    rw [List.dropWhile_cons]
    by_cases h : p c = true
    · rw [if_pos h]
      simp only [List.length_cons]
      omega
    · rw [if_neg h]

theorem splitLinesF_fuel : ∀ f1 f2 s, s.length ≤ f1 → s.length ≤ f2 →
    splitLinesF f1 s = splitLinesF f2 s := by
  intro f1
  induction f1 using Nat.strong_induction_on with
  | _ f1 ih =>
    intro f2 s h1 h2
    cases s with
    | nil => simp [splitLinesF]
    | cons c t =>
      cases f1 with
      | zero => simp at h1
      | succ g1 =>
        cases f2 with
        | zero => simp at h2
        | succ g2 =>
          simp only [splitLinesF]
          cases hdrop : (c :: t).dropWhile notNl with
          | nil => rfl
          | cons x r =>
            have hlen : r.length ≤ t.length := by
              have := length_dropWhile_le notNl (c :: t)
              rw [hdrop] at this
              simp at this
              omega
            have ht1 : t.length + 1 ≤ g1 + 1 := by simpa using h1
            have ht2 : t.length + 1 ≤ g2 + 1 := by simpa using h2
            change List.takeWhile notNl (c :: t) :: splitLinesF g1 r =
              List.takeWhile notNl (c :: t) :: splitLinesF g2 r
            rw [ih g1 (by omega) g2 r (by omega) (by omega)]

theorem splitLinesF_step (fuel : Nat) (A Y : Str) (hA : '\n' ∉ A)
    (_hY : Y.length ≤ fuel) :
    splitLinesF (fuel + 1) (A ++ '\n' :: Y) = A :: splitLinesF fuel Y := by
  have hall : ∀ c ∈ A, notNl c = true := by
    intro c hc
    simp only [notNl, bne_iff_ne, ne_eq]
    intro hcontra; subst hcontra; exact hA hc
  have hne : A ++ '\n' :: Y ≠ [] := by simp
  have hdrop : (A ++ '\n' :: Y).dropWhile notNl = '\n' :: Y := by
    rw [dropWhile_append_all _ hall, List.dropWhile_cons]
    simp [notNl]
  have htake : (A ++ '\n' :: Y).takeWhile notNl = A := by
    rw [takeWhile_append_all _ hall, List.takeWhile_cons]
    simp [notNl]
  cases hAY : A ++ '\n' :: Y with
  | nil => exact absurd hAY hne
  | cons c t =>
    rw [← hAY]
    simp only [splitLinesF, hAY]
    rw [← hAY, hdrop, htake]

theorem splitLines_cons_line (A Y : Str) (hA : '\n' ∉ A) :
    splitLines (A ++ '\n' :: Y) = A :: splitLines Y := by
  unfold splitLines
  have hlen : (A ++ '\n' :: Y).length = (A.length + Y.length) + 1 := by
    simp [List.length_append]
    omega
  rw [hlen, splitLinesF_step _ A Y hA (by omega)]
  rw [splitLinesF_fuel (A.length + Y.length) Y.length Y (by omega) (le_refl _)]

/-- A log file the module itself wrote: empty, or ending with the
newline `log_usage` appends after every record. -/
def logWf (L : Str) : Prop := L = [] ∨ L.getLast? = some '\n'

theorem dropWhile_head_not {p : Char → Bool} :
    ∀ (s : Str) c r, s.dropWhile p = c :: r → p c = false := by
  intro s
  induction s with
  | nil => intro c r h; simp at h
  | cons a t ih =>
    intro c r h
    rw [List.dropWhile_cons] at h
    by_cases hp : p a = true
    · rw [if_pos hp] at h
      exact ih c r h
    · rw [if_neg hp] at h
      cases h
      simpa using hp

theorem splitLines_append_line : ∀ (L : Str), logWf L → ∀ (A : Str), '\n' ∉ A →
    splitLines (L ++ A ++ ['\n']) = splitLines L ++ [A] := by
  have key : ∀ n (L : Str), L.length ≤ n → logWf L → ∀ (A : Str), '\n' ∉ A →
      splitLines (L ++ A ++ ['\n']) = splitLines L ++ [A] := by
    intro n
    induction n using Nat.strong_induction_on with
    | _ n ih =>
      intro L hlen hwf A hA
      rcases hwf with hnil | hlast
      · subst hnil
        simp only [List.nil_append]
        have : A ++ ['\n'] = A ++ '\n' :: [] := rfl
        rw [this, splitLines_cons_line A [] hA]
        rfl
      · have hmem : '\n' ∈ L := List.mem_of_mem_getLast? hlast
        -- decompose L at its first newline
        set A0 := L.takeWhile notNl with hA0
        set R := L.dropWhile notNl with hR
        have hsplit : A0 ++ R = L := List.takeWhile_append_dropWhile notNl L
        have hRne : R ≠ [] := by
          intro hcontra
          have : A0 = L := by rw [← hsplit, hcontra, List.append_nil]
          have hall : ∀ c ∈ L, notNl c = true := by
            rw [← this]
            intro c hc
            exact List.mem_takeWhile_imp hc
          have := hall '\n' hmem
          simp [notNl] at this
        obtain ⟨x, B, hxB⟩ : ∃ x B, R = x :: B := by
          cases hcase : R with
          | nil => exact absurd hcase hRne
          | cons x B => exact ⟨x, B, rfl⟩
        have hx : x = '\n' := by
          have := dropWhile_head_not L x B (by rw [← hR, hxB])
          simpa [notNl] using this
        subst hx
        have hA0nl : '\n' ∉ A0 := by
          intro hc
          have := List.mem_takeWhile_imp hc
          simp [notNl] at this
        have hLdec : L = A0 ++ '\n' :: B := by rw [← hsplit, hxB]
        have hBwf : logWf B := by
          cases hBcase : B with
          | nil => exact Or.inl rfl
          | cons b bs =>
            right
            rw [hLdec, hBcase] at hlast
            rw [List.getLast?_append_of_ne_nil _ (by simp)] at hlast
            rw [show ('\n' :: b :: bs) = ['\n'] ++ b :: bs from rfl,
              List.getLast?_append_of_ne_nil _ (by simp)] at hlast
            rw [← hBcase] at hlast ⊢
            exact hlast
        have hBlen : B.length < n := by
          have : L.length = A0.length + 1 + B.length := by
            rw [hLdec]; simp [List.length_append]; omega
          omega
        rw [hLdec]
        have h1 : (A0 ++ '\n' :: B) ++ A ++ ['\n'] = A0 ++ '\n' :: (B ++ A ++ ['\n']) := by
          simp [List.append_assoc]
        rw [h1, splitLines_cons_line A0 _ hA0nl, splitLines_cons_line A0 B hA0nl]
        rw [ih B.length hBlen B (le_refl _) hBwf A hA]
        rfl
  intro L hwf A hA
  exact key L.length L (le_refl _) hwf A hA

theorem pyStrip_eq_self {s : Str} (c1 c2 : Char) (t1 : Str) (hc : s = c1 :: t1)
    (hlast : s.getLast? = some c2) (h1 : isSpaceCh c1 = false)
    (h2 : isSpaceCh c2 = false) : pyStrip s = s := by
  unfold pyStrip
  have hfront : s.dropWhile isSpaceCh = s := by
    rw [hc, List.dropWhile_cons, if_neg (by simp [h1])]
  rw [hfront]
  have hrevhead : s.reverse.head? = some c2 := by rw [List.head?_reverse]; exact hlast
  obtain ⟨rs, hrs⟩ : ∃ rs, s.reverse = c2 :: rs := by
    cases hcase : s.reverse with
    | nil => rw [hcase] at hrevhead; simp at hrevhead
    | cons x xs =>
      rw [hcase] at hrevhead
      simp only [List.head?_cons, Option.some.injEq] at hrevhead
      exact ⟨xs, by rw [hrevhead]⟩
  rw [hrs, List.dropWhile_cons, if_neg (by simp [h2]), ← hrs, List.reverse_reverse]

theorem dumps_obj_getLast (l : List (Str × Json)) :
    (dumps (.obj l)).getLast? = some '\x7d' := by
  have : dumps (.obj l) = '\x7b' :: dumpsMembers l ++ ['\x7d'] := by simp [dumps]
  rw [this, List.getLast?_concat]

theorem pyStrip_dumps_obj (l : List (Str × Json)) :
    pyStrip (dumps (.obj l)) = dumps (.obj l) := by
  have hshape : dumps (.obj l) = '\x7b' :: (dumpsMembers l ++ ['\x7d']) := by
    simp [dumps, List.cons_append]
  exact pyStrip_eq_self '\x7b' '\x7d' _ hshape (dumps_obj_getLast l) (by decide) (by decide)

/-- One line of the metrics loop: `line.strip()`, skip blank lines,
`json.loads(line)`, skip lines that fail to parse. -/
def parseLogLine (line : Str) : Option Json :=
  if pyStrip line = [] then none else loads (pyStrip line)

/-- The parsed-record stream the metrics loop folds over. -/
def parsedRecords (content : Str) : List Json :=
  (splitLines content).filterMap parseLogLine

theorem parseLogLine_dumps_obj (flds : List (Str × Json)) :
    parseLogLine (dumps (.obj flds)) = some (.obj flds) := by
  unfold parseLogLine
  rw [pyStrip_dumps_obj, if_neg (dumps_ne_nil _), loads_dumps]

/-- Appending one serialised record line extends the parsed-record
stream by exactly that record. -/
theorem parsedRecords_append (L : Str) (hwf : logWf L) (flds : List (Str × Json)) :
    parsedRecords (L ++ dumps (.obj flds) ++ ['\n']) =
      parsedRecords L ++ [Json.obj flds] := by
  unfold parsedRecords
  rw [splitLines_append_line L hwf _ (newline_notin_dumps _), List.filterMap_append]
  simp [parseLogLine_dumps_obj]

theorem logWf_append (L X : Str) : logWf (L ++ X ++ ['\n']) := by
  right
  rw [List.append_assoc, List.getLast?_append_of_ne_nil _ (by simp)]
  rw [List.getLast?_concat]

/-- Insert into a sorted list, before the first element not below `x`
(keeps ties in input order, like CPython's stable sort). -/
def insertLe {α : Type} (le : α → α → Bool) (x : α) : List α → List α
  | [] => [x]
  | y :: ys => if le x y then x :: y :: ys else y :: insertLe le x ys

/-- Stable insertion sort: the model of CPython's `list.sort`, which is
stable; with a descending comparator it models `reverse=True`. -/
def isort {α : Type} (le : α → α → Bool) : List α → List α
  | [] => []
  | x :: xs => insertLe le x (isort le xs)

theorem insertLe_perm {α : Type} (le : α → α → Bool) (x : α) :
    ∀ l : List α, (insertLe le x l).Perm (x :: l) := by
  intro l
  induction l with
  | nil => simp [insertLe]
  | cons y ys ih =>
    unfold insertLe
    by_cases h : le x y = true
    · rw [if_pos h]
    · rw [if_neg h]
      exact (List.Perm.cons y ih).trans (List.Perm.swap x y ys)

theorem isort_perm {α : Type} (le : α → α → Bool) :
    ∀ l : List α, (isort le l).Perm l := by
  intro l
  induction l with
  | nil => simp [isort]
  | cons x xs ih =>
    unfold isort
    exact (insertLe_perm le x (isort le xs)).trans (List.Perm.cons x ih)

theorem insertLe_pairwise {α : Type} (le : α → α → Bool)
    (htrans : ∀ a b c, le a b = true → le b c = true → le a c = true)
    (htotal : ∀ a b, (le a b || le b a) = true) (x : α) :
    ∀ l : List α, l.Pairwise (fun a b => le a b = true) →
      (insertLe le x l).Pairwise (fun a b => le a b = true) := by
  intro l
  induction l with
  | nil => intro _; simp [insertLe]
  | cons y ys ih =>
    intro hp
    have hhead := (List.pairwise_cons.mp hp).1
    have htail := (List.pairwise_cons.mp hp).2
    unfold insertLe
    by_cases h : le x y = true
    · rw [if_pos h]
      refine List.Pairwise.cons ?_ hp
      intro b hb
      rcases List.mem_cons.mp hb with hb | hb
      · subst hb; exact h
      · exact htrans x y b h (hhead b hb)
    · rw [if_neg h]
      have hyx : le y x = true := by
        have := htotal x y
        rcases Bool.or_eq_true_iff.mp this with h' | h'
        · exact absurd h' h
        · exact h'
      refine List.Pairwise.cons ?_ (ih htail)
      intro b hb
      have hb' : b ∈ x :: ys := (insertLe_perm le x ys).mem_iff.mp hb
      rcases List.mem_cons.mp hb' with hb' | hb'
      · subst hb'; exact hyx
      · exact hhead b hb'

theorem isort_pairwise {α : Type} (le : α → α → Bool)
    (htrans : ∀ a b c, le a b = true → le b c = true → le a c = true)
    (htotal : ∀ a b, (le a b || le b a) = true) :
    ∀ l : List α, (isort le l).Pairwise (fun a b => le a b = true) := by
  intro l
  induction l with
  | nil => simp [isort]
  | cons x xs ih =>
    unfold isort
    exact insertLe_pairwise le htrans htotal x (isort le xs) ih

/-- All components zero (the padding of PEP 440 release comparison). -/
def allZero (l : List Nat) : Bool := l.all (fun d => d = 0)

/-- PEP 440 release-tuple comparison: componentwise numeric order with
implicit zero padding of the shorter tuple. -/
def svLe : List Nat → List Nat → Bool
  | [], _ => true
  | a :: as, [] => allZero (a :: as)
  | a :: as, b :: bs =>
    if a < b then true else if b < a then false else svLe as bs

theorem svLe_of_allZero : ∀ {a : List Nat}, allZero a = true → ∀ b, svLe a b = true := by
  intro a
  induction a with
  | nil => intro _ b; rfl
  | cons x xs ih =>
    intro h b
    have hx : x = 0 := by simp [allZero] at h; exact h.1
    have hxs : allZero xs = true := by simp [allZero] at h ⊢; exact h.2
    cases b with
    | nil => simpa [svLe, allZero] using (by simp [allZero] at h ⊢; exact h)
    | cons y ys =>
      unfold svLe
      subst hx
      by_cases hy : 0 < y
      · rw [if_pos hy]
      · have hy0 : y = 0 := by omega
        subst hy0
        simp only [Nat.lt_irrefl, if_false, ite_false]
        exact ih hxs ys

theorem allZero_of_svLe_allZero : ∀ {b a : List Nat}, allZero b = true →
    svLe a b = true → allZero a = true := by
  intro b
  induction b with
  | nil =>
    intro a hb ha
    cases a with
    | nil => rfl
    | cons x xs => simpa [svLe] using ha
  | cons y ys ih =>
    intro a hb ha
    have hy : y = 0 := by simp [allZero] at hb; exact hb.1
    have hys : allZero ys = true := by simp [allZero] at hb ⊢; exact hb.2
    cases a with
    | nil => rfl
    | cons x xs =>
      subst hy
      unfold svLe at ha
      by_cases hx : x = 0
      · subst hx
        simp only [Nat.lt_irrefl, if_false, ite_false] at ha
        have := ih hys ha
        simpa [allZero] using this
      · have h1 : ¬ x < 0 := by omega
        rw [if_neg h1, if_pos (by omega)] at ha
        simp at ha

theorem svLe_total : ∀ a b : List Nat, (svLe a b || svLe b a) = true := by
  intro a
  induction a with
  | nil => intro b; simp [svLe]
  | cons x xs ih =>
    intro b
    cases b with
    | nil => simp [svLe]
    | cons y ys =>
      rcases Nat.lt_trichotomy x y with h | h | h
      · simp only [svLe]
        rw [if_pos h]
        simp
      · subst h
        simp only [svLe, Nat.lt_irrefl, if_false, ite_false]
        exact ih ys
      · simp only [svLe]
        rw [if_neg (by omega : ¬ x < y), if_pos h, if_pos h]
        simp

theorem svLe_cons_iff {x y : Nat} {xs ys : List Nat} :
    svLe (x :: xs) (y :: ys) = true ↔ x < y ∨ (x = y ∧ svLe xs ys = true) := by
  constructor
  · intro h
    unfold svLe at h
    by_cases h1 : x < y
    · exact Or.inl h1
    · rw [if_neg h1] at h
      by_cases h2 : y < x
      · rw [if_pos h2] at h; simp at h
      · rw [if_neg h2] at h
        exact Or.inr ⟨by omega, h⟩
  · rintro (h | ⟨rfl, h⟩)
    · unfold svLe; rw [if_pos h]
    · unfold svLe
      simp only [Nat.lt_irrefl, if_false, ite_false]
      exact h

theorem svLe_trans : ∀ a b c : List Nat, svLe a b = true → svLe b c = true →
    svLe a c = true := by
  intro a
  induction a with
  | nil => intro b c _ _; rfl
  | cons x xs ih =>
    intro b c h1 h2
    cases b with
    | nil =>
      have ha : allZero (x :: xs) = true := h1
      exact svLe_of_allZero ha c
    | cons y ys =>
      cases c with
      | nil =>
        have hb : allZero (y :: ys) = true := h2
        exact allZero_of_svLe_allZero hb h1
      | cons z zs =>
        rcases svLe_cons_iff.mp h1 with hlt1 | ⟨heq1, hrec1⟩ <;>
          rcases svLe_cons_iff.mp h2 with hlt2 | ⟨heq2, hrec2⟩
        · exact svLe_cons_iff.mpr (Or.inl (by omega))
        · exact svLe_cons_iff.mpr (Or.inl (by omega))
        · exact svLe_cons_iff.mpr (Or.inl (by omega))
        · exact svLe_cons_iff.mpr (Or.inr ⟨by omega, ih ys zs hrec1 hrec2⟩)

/-- Strict lexicographic order on code-point lists: the model of
Python's string `<`. -/
def lexLt : Str → Str → Bool
  | [], [] => false
  | [], _ :: _ => true
  | _ :: _, [] => false
  | a :: as, b :: bs => if a < b then true else if b < a then false else lexLt as bs

/-- Python string `<=`. -/
def lexLe (a b : Str) : Bool := !lexLt b a

theorem lexLt_cons_iff {a b : Char} {as bs : Str} :
    lexLt (a :: as) (b :: bs) = true ↔ a < b ∨ (a = b ∧ lexLt as bs = true) := by
  constructor
  · intro h
    unfold lexLt at h
    by_cases h1 : a < b
    · exact Or.inl h1
    · rw [if_neg h1] at h
      by_cases h2 : b < a
      · rw [if_pos h2] at h; simp at h
      · rw [if_neg h2] at h
        have : a = b := le_antisymm (not_lt.mp h2) (not_lt.mp h1)
        exact Or.inr ⟨this, h⟩
  · rintro (h | ⟨rfl, h⟩)
    · unfold lexLt; rw [if_pos h]
    · unfold lexLt
      simp only [lt_irrefl, if_false, ite_false]
      exact h

theorem lexLt_trans : ∀ a b c : Str, lexLt a b = true → lexLt b c = true →
    lexLt a c = true := by
  intro a
  induction a with
  | nil =>
    intro b c h1 h2
    cases b with
    | nil => simp [lexLt] at h1
    | cons y ys =>
      cases c with
      | nil => simp [lexLt] at h2
      | cons z zs => rfl
  | cons x xs ih =>
    intro b c h1 h2
    cases b with
    | nil => simp [lexLt] at h1
    | cons y ys =>
      cases c with
      | nil => simp [lexLt] at h2
      | cons z zs =>
        rcases lexLt_cons_iff.mp h1 with hlt1 | ⟨heq1, hrec1⟩ <;>
          rcases lexLt_cons_iff.mp h2 with hlt2 | ⟨heq2, hrec2⟩
        · exact lexLt_cons_iff.mpr (Or.inl (lt_trans hlt1 hlt2))
        · subst heq2; exact lexLt_cons_iff.mpr (Or.inl hlt1)
        · subst heq1; exact lexLt_cons_iff.mpr (Or.inl hlt2)
        · subst heq1; subst heq2
          exact lexLt_cons_iff.mpr (Or.inr ⟨rfl, ih ys zs hrec1 hrec2⟩)

theorem lexLt_trichot : ∀ a b : Str, lexLt a b = true ∨ a = b ∨ lexLt b a = true := by
  intro a
  induction a with
  | nil =>
    intro b
    cases b with
    | nil => exact Or.inr (Or.inl rfl)
    | cons y ys => exact Or.inl rfl
  | cons x xs ih =>
    intro b
    cases b with
    | nil => exact Or.inr (Or.inr rfl)
    | cons y ys =>
      rcases lt_trichotomy x y with h | h | h
      · exact Or.inl (lexLt_cons_iff.mpr (Or.inl h))
      · subst h
        rcases ih ys with h' | h' | h'
        · exact Or.inl (lexLt_cons_iff.mpr (Or.inr ⟨rfl, h'⟩))
        · subst h'; exact Or.inr (Or.inl rfl)
        · exact Or.inr (Or.inr (lexLt_cons_iff.mpr (Or.inr ⟨rfl, h'⟩)))
      · exact Or.inr (Or.inr (lexLt_cons_iff.mpr (Or.inl h)))

theorem lexLt_asymm : ∀ a b : Str, lexLt a b = true → lexLt b a = true → False := by
  intro a
  induction a with
  | nil =>
    intro b h1 h2
    cases b with
    | nil => simp [lexLt] at h1
    | cons y ys => simp [lexLt] at h2
  | cons x xs ih =>
    intro b h1 h2
    cases b with
    | nil => simp [lexLt] at h1
    | cons y ys =>
      rcases lexLt_cons_iff.mp h1 with hlt1 | ⟨heq1, hrec1⟩ <;>
        rcases lexLt_cons_iff.mp h2 with hlt2 | ⟨heq2, hrec2⟩
      · exact absurd hlt2 (not_lt.mpr (le_of_lt hlt1))
      · exact absurd hlt1 (by rw [heq2]; exact lt_irrefl x)
      · exact absurd hlt2 (by rw [heq1]; exact lt_irrefl y)
      · exact ih ys hrec1 hrec2

theorem lexLe_total : ∀ a b : Str, (lexLe a b || lexLe b a) = true := by
  intro a b
  unfold lexLe
  by_cases h1 : lexLt b a = true
  · by_cases h2 : lexLt a b = true
    · exact absurd (lexLt_asymm a b h2 h1) (by simp)
    · simp [h1, h2]
  · simp [h1]

theorem lexLe_trans : ∀ a b c : Str, lexLe a b = true → lexLe b c = true →
    lexLe a c = true := by
  intro a b c h1 h2
  unfold lexLe at h1 h2 ⊢
  simp only [Bool.not_eq_true'] at h1 h2 ⊢
  by_cases hca : lexLt c a = true
  · rcases lexLt_trichot b a with h | h | h
    · rw [h] at h1; simp at h1
    · subst h
      rw [hca] at h2; simp at h2
    · have := lexLt_trans c a b hca h
      rw [this] at h2; simp at h2
  · simpa using hca

/-- Model of `packaging.version.parse`, restricted to the plain
dotted-numeric release grammar `N(.N)*` that this repository's version
strings use: it yields the numeric release components.  Anything else
raises `InvalidVersion` in the library, modelled as `none` (the wider
PEP 440 grammar — epochs, pre-releases, local segments — is outside the
modelled fragment; no claim exercises it).  Release tuples compare with
implicit zero padding (`svLe`), as in PEP 440. -/
def parse_version (s : Str) : Option (List Nat) :=
  let groups := s.splitOn '.'
  if groups.all (fun g => !g.isEmpty && g.all Char.isDigit) then
    some (groups.map parseDigitsVal)
  else none

/-- One loaded prompt entry: the parsed YAML mapping after
`_load_prompts` has applied the `setdefault`s.  The `_source_file` /
`_loaded_at` provenance keys are omitted from the model: no operation
of the module ever reads them. -/
structure Entry where
  data : List (Str × Json)
deriving DecidableEq

/-- `entry.get(k)`. -/
def Entry.lookup (e : Entry) (k : Str) : Option Json := dictGet e.data k

/-- `str(x.get("version", "0.0.0"))` — the sort key used at load time
(line 71 of `prompt_manager.py`). -/
def verSortStr (e : Entry) : Str :=
  pyStr ((e.lookup ("version".toList)).getD (Json.str ("0.0.0".toList)))

/-- `str(v.get("version"))` — the string compared against the requested
version in `get_prompt` (line 94); an absent key gives `str(None)`. -/
def verMatchStr (e : Entry) : Str :=
  pyStr ((e.lookup ("version".toList)).getD Json.null)

/-- `str(x.get("version", ""))` — the key of the lexical fallback sort
(line 74 of `prompt_manager.py`); note its default for an absent
`version` key is the *empty string*, unlike the `"0.0.0"` default of
the semantic key on line 71. -/
def verFallbackStr (e : Entry) : Str :=
  pyStr ((e.lookup ("version".toList)).getD (Json.str []))

/-- `parse_version(str(x.get("version", "0.0.0")))` as an `Option`. -/
def svKeyOf (e : Entry) : Option (List Nat) := parse_version (verSortStr e)

/-- The in-memory index `_PROMPT_INDEX`: identifier to its entries. -/
abbrev Registry := List (Str × List Entry)

/-- `_PROMPT_INDEX[pid]` (`None` when the key is absent). -/
def regGet (reg : Registry) (pid : Str) : Option (List Entry) :=
  (reg.find? (fun p => p.1 = pid)).map (fun p => p.2)

/-- `_PROMPT_INDEX.setdefault(pid, []).append(entry)`. -/
def indexAdd (idx : Registry) (pid : Str) (e : Entry) : Registry :=
  if (regGet idx pid).isSome then
    idx.map (fun g => if g.1 = pid then (g.1, g.2 ++ [e]) else g)
  else
    idx ++ [(pid, [e])]

/-- The entry built from one accepted document: `dict(data)` plus the
two `setdefault`s (lines 57–63). -/
def mkEntry (data : List (Str × Json)) : Entry :=
  ⟨setdefault (setdefault data ("example_inputs".toList) (Json.arr []))
    ("expected_output_schema".toList) (Json.obj [])⟩

/-- The per-document loop of `_load_prompts` (lines 48–66).  A document
is `none` when opening or parsing it raised (the `Failed to load`
branch); otherwise it is the parsed YAML mapping (non-mapping YAML
documents are outside the model's scope — the claims only concern
mapping documents and load failures; a falsy document, e.g. an empty
file, behaves as the empty mapping).  A document is skipped when it is
falsy or has no `prompt_id` key; note a present key with an *empty*
value is accepted. -/
def loadStep (idx : Registry) (doc : Option (List (Str × Json))) : Registry :=
  match doc with
  | none => idx
  | some data =>
    if data.isEmpty then idx
    else
      match dictGet data ("prompt_id".toList) with
      | none => idx
      | some pv => indexAdd idx (pyStr pv) (mkEntry data)

def rawIndex (docs : List (Option (List (Str × Json)))) : Registry :=
  docs.foldl loadStep []

/-- The group sort of `_load_prompts` (lines 68–74): CPython's
`list.sort` computes all keys before comparing, so when any key raises
`InvalidVersion` the list is left untouched and the `except` branch
re-sorts the original order lexically; `reverse=True` is the stable
descending sort, modelled by `isort` with the flipped comparator. -/
def sortGroup (versions : List Entry) : List Entry :=
  if versions.all (fun e => (svKeyOf e).isSome) then
    isort (fun a b => svLe ((svKeyOf b).getD []) ((svKeyOf a).getD [])) versions
  else
    isort (fun a b => lexLe (verFallbackStr b) (verFallbackStr a)) versions

/-- `_load_prompts`: build the raw index from the documents, then sort
every identifier's list of versions. -/
def load_prompts (docs : List (Option (List (Str × Json)))) : Registry :=
  (rawIndex docs).map (fun g => (g.1, sortGroup g.2))

/-- `get_prompt(prompt_id, version=None)` (lines 81–96): `none` models
the `KeyError`s; `dict(v)` copying is the identity on values. -/
def get_prompt (reg : Registry) (prompt_id : Str) (version : Option Str) :
    Option Entry :=
  match regGet reg prompt_id with
  | none => none
  | some candidates =>
    match version with
    | none => candidates.head?
    | some v => candidates.find? (fun e => verMatchStr e == v)

example : parse_version ("1.10.0".toList) = some [1, 10, 0] := by decide
example : parse_version ("1.0rc1".toList) = none := by decide
example : parse_version ("".toList) = none := by decide
example :
    get_prompt [( ['a'], [⟨[(("version".toList), Json.str ("1.0".toList))]⟩] )]
      ['a'] (some ("1.0".toList)) = some ⟨[(("version".toList), Json.str ("1.0".toList))]⟩ := by
  decide
example :
    load_prompts [some [(("prompt_id".toList), Json.str ['a']),
                        (("version".toList), Json.str ("2.0".toList))],
                  some [(("prompt_id".toList), Json.str ['a']),
                        (("version".toList), Json.str ("10.0".toList))]] =
    [(['a'], [mkEntry [(("prompt_id".toList), Json.str ['a']),
                       (("version".toList), Json.str ("10.0".toList))],
              mkEntry [(("prompt_id".toList), Json.str ['a']),
                       (("version".toList), Json.str ("2.0".toList))]])] := by
  decide

/-- A parsed Jinja2 template: literal characters and `\x7b\x7b name \x7d\x7d`
placeholders.  The modelled fragment is plain identifier substitution —
the only template syntax the repository's prompts use. -/
inductive TmplPart where
  | lit (c : Char) : TmplPart
  | var (name : Str) : TmplPart
deriving DecidableEq

/-- Scan to the closing `\x7d\x7d` of a placeholder. -/
def tmplClose : Str → Option (Str × Str)
  | [] => none
  | '\x7d' :: '\x7d' :: rest => some ([], rest)
  | c :: rest => (tmplClose rest).map (fun p => (c :: p.1, p.2))

/-- A Jinja2 identifier. -/
def isIdent : Str → Bool
  | [] => false
  | c :: rest => (c.isAlpha || c = '_') && rest.all (fun d => d.isAlphanum || d = '_')

/-- Fuel-indexed template scanner (fuel: input length). -/
def parseTmplF : Nat → Str → Option (List TmplPart)
  | _, [] => some []
  | 0, _ :: _ => none
  | fuel + 1, '\x7b' :: '\x7b' :: rest =>
    match tmplClose rest with
    | none => none
    | some (inner, rest') =>
      let name := pyStrip inner
      if isIdent name then (parseTmplF fuel rest').map (fun ps => .var name :: ps)
      else none
  | fuel + 1, c :: rest => (parseTmplF fuel rest).map (fun ps => .lit c :: ps)

/-- Parse a template body: `none` models a `TemplateSyntaxError` (or a
placeholder beyond the identifier fragment). -/
def parseTmpl (s : Str) : Option (List TmplPart) := parseTmplF s.length s

/-- The variables a template references. -/
def tmplVars (parts : List TmplPart) : List Str :=
  parts.filterMap (fun p => match p with | .var v => some v | .lit _ => none)

/-- Left-to-right evaluation under `StrictUndefined`: the first
placeholder whose name is unbound raises, later parts are never
reached; a bound placeholder renders as `str(value)`. -/
def renderParts (parts : List TmplPart) (vars : List (Str × Json)) : Except Str Str :=
  match parts with
  | [] => .ok []
  | .lit c :: rest => (renderParts rest vars).map (fun s => c :: s)
  | .var v :: rest =>
    match dictGet vars v with
    | none => .error v
    | some jv => (renderParts rest vars).map (fun s => pyStr jv ++ s)

inductive RenderErr where
  /-- `KeyError` from `get_prompt`. -/
  | notFound : RenderErr
  /-- `jinja2.exceptions.UndefinedError` naming the missing variable. -/
  | undefinedVar (name : Str) : RenderErr
  /-- `TemplateSyntaxError` (or a non-string template). -/
  | badTemplate : RenderErr
deriving DecidableEq

/-- `render_prompt` (lines 107–117): fetch the prompt, take
`prompt.get("template", "")`, render with `StrictUndefined`. -/
def render_prompt (reg : Registry) (prompt_id : Str) (inputs : List (Str × Json))
    (version : Option Str) : Except RenderErr Str :=
  match get_prompt reg prompt_id version with
  | none => .error .notFound
  | some prompt =>
    match (match prompt.lookup ("template".toList) with
           | none => some ([] : Str)
           | some (Json.str s) => some s
           | some _ => none) with
    | none => .error .badTemplate
    | some template_text =>
      match parseTmpl template_text with
      | none => .error .badTemplate
      | some parts =>
        match renderParts parts inputs with
        | .error v => .error (.undefinedVar v)
        | .ok s => .ok s

/-- One usage record, with the exact fields `log_usage` writes. -/
structure UsageRecord where
  timestamp : Str
  prompt_id : Str
  version : Str
  input : Json
  response : Json
  latency_ms : Int × Nat
  metadata : List (Str × Json)
deriving DecidableEq

/-- `float(x)` at the printing level: an integral decimal gains one
fractional digit (`repr(float(10)) = "10.0"`). -/
def floatOfDec (d : Int × Nat) : Int × Nat := if d.2 = 0 then (d.1 * 10, 1) else d

/-- The JSON object `log_usage` serialises, fields in insertion order. -/
def recordToJson (r : UsageRecord) : Json :=
  .obj [("timestamp".toList, .str r.timestamp),
        ("prompt_id".toList, .str r.prompt_id),
        ("version".toList, .str r.version),
        ("input".toList, r.input),
        ("response".toList, r.response),
        ("latency_ms".toList, .num r.latency_ms.1 r.latency_ms.2),
        ("metadata".toList, .obj r.metadata)]

/-- Reading one stored line back into a record, field by field, as the
aggregation endpoint accesses them. -/
def recordOfJson (j : Json) : Option UsageRecord :=
  match j with
  | .obj fs =>
    match dictGet fs ("timestamp".toList), dictGet fs ("prompt_id".toList),
        dictGet fs ("version".toList), dictGet fs ("input".toList),
        dictGet fs ("response".toList), dictGet fs ("latency_ms".toList),
        dictGet fs ("metadata".toList) with
    | some (.str ts), some (.str pid), some (.str ver), some inp, some resp,
        some (.num m e), some (.obj md) =>
      some ⟨ts, pid, ver, inp, resp, (m, e), md⟩
    | _, _, _, _, _, _, _ => none
  | _ => none

/-- `log_usage` (lines 120–165).  `validate` models
`jsonschema_validate`, returning `str(ve)` when the response violates
the schema (`ValidationError`); `now` models `datetime.now(...)`; the
log file is its character content (`_ensure_usage_file_exists` makes
the initial content empty).  Returns the record and the new content. -/
def log_usage (validate : Json → Json → Option Str) (reg : Registry) (now : Str)
    (prompt_id version : Str) (input_data response : Json) (latency_ms : Int × Nat)
    (metadata : Option (List (Str × Json))) (log : Str) : UsageRecord × Str :=
  let validation_error : Option Str :=
    match get_prompt reg prompt_id (some version) with
    | some prompt_meta =>
      match prompt_meta.lookup ("expected_output_schema".toList) with
      | some schema => if truthy schema then validate schema response else none
      | none => none
    | none => some (" prompt metadata not found.".toList)
  let md0 := metadata.getD []
  let record : UsageRecord :=
    { timestamp := now, prompt_id := prompt_id, version := version,
      input := input_data, response := response,
      latency_ms := floatOfDec latency_ms,
      metadata :=
        match validation_error with
        | some s => if s.isEmpty then md0
                    else dictSet md0 ("validation_error".toList) (.str s)
        | none => md0 }
  (record, log ++ dumps (recordToJson record) ++ ['\n'])

theorem recordOfJson_toJson (r : UsageRecord) : recordOfJson (recordToJson r) = some r := by
  obtain ⟨ts, pid, ver, inp, resp, ⟨m, e⟩, md⟩ := r
  rfl

/-- One per-identifier accumulator of the metrics loop (line 257). -/
structure RawBucket where
  latencies : List ℚ
  count : Nat
  last_seen : Option Json
  latest_version : Option Json
deriving DecidableEq

/-- The `defaultdict` default. -/
def emptyBucket : RawBucket := ⟨[], 0, none, none⟩

/-- The aggregation dictionary. -/
abbrev AggState := List (Json × RawBucket)

def aggGet (s : AggState) (k : Json) : Option RawBucket :=
  (s.find? (fun p => p.1 == k)).map (fun p => p.2)

/-- Write a bucket back (a `defaultdict` inserts on first access and
mutates in place afterwards). -/
def aggSet (s : AggState) (k : Json) (b : RawBucket) : AggState :=
  if (aggGet s k).isSome then
    s.map (fun p => if p.1 == k then (k, b) else p)
  else
    s ++ [(k, b)]

/-- `isinstance(latency, (int, float))` plus `float(latency)`;
Python `bool` is a subclass of `int`, so `True`/`False` count. -/
def latencyNum : Option Json → Option ℚ
  | some (.num m e) => some (decToRat m e)
  | some (.bool b) => some (if b then 1 else 0)
  | _ => none

/-- Python `a > b` on stored scalar values, as the aggregator compares
timestamps; `none` models the `TypeError` a cross-type comparison
raises (propagating to the endpoint's catch-all handler).  Sequence
comparisons are outside the modelled fragment and also map to `none`;
no claim exercises them. -/
def pyGt : Json → Json → Option Bool
  | .str a, .str b => some (lexLt b a)
  | .num m e, .num m' e' => some (decide (decToRat m' e' < decToRat m e))
  | .bool a, .bool b => some (decide (b < a))
  | .bool a, .num m e => some (decide (decToRat m e < (if a then 1 else 0)))
  | .num m e, .bool b => some (decide ((if b then (1 : ℚ) else 0) < decToRat m e))
  | _, _ => none

/-- `rec.get("prompt_id") or "<unknown>"` (line 270). -/
def pidOf (fs : List (Str × Json)) : Json :=
  match dictGet fs ("prompt_id".toList) with
  | some v => if truthy v then v else .str ("<unknown>".toList)
  | none => .str ("<unknown>".toList)

/-- Dictionary keys must be hashable: a list or dict key raises
`TypeError` when used to index the `defaultdict`. -/
def hashable : Json → Bool
  | .arr _ => false
  | .obj _ => false
  | _ => true

/-- Fold one parsed record (a JSON mapping) into the bucket under
`key` (lines 270–292).  `Except` carries the exceptions the loop does
not catch (they surface as the endpoint's 500 response). -/
def aggFold (agg : AggState) (key : Json) (fs : List (Str × Json)) :
    Except Unit AggState :=
  let latency := dictGet fs ("latency_ms".toList)
  let ts := dictGet fs ("timestamp".toList)
  let ver := dictGet fs ("version".toList)
  let b := (aggGet agg key).getD emptyBucket
  let lat' := match latencyNum latency with
              | some q => b.latencies ++ [q]
              | none => b.latencies
  let count' := b.count + 1
  match (match ts with
         | none => some b.last_seen
         | some tj =>
           if truthy tj then
             match b.last_seen with
             | none => some (some tj)
             | some lj =>
               match pyGt tj lj with
               | some true => some (some tj)
               | some false => some b.last_seen
               | none => none
           else some b.last_seen) with
  | none => .error ()
  | some last' =>
    let ver' : Option Json :=
      match ver with
      | none => b.latest_version
      | some vj =>
        if truthy vj then
          match b.latest_version with
          | none => some vj
          | some cur =>
            match parse_version (pyStr vj), parse_version (pyStr cur) with
            | some kv, some kc => if !svLe kv kc then some vj else b.latest_version
            | _, _ => if lexLt (pyStr cur) (pyStr vj) then some vj else b.latest_version
        else b.latest_version
    .ok (aggSet agg key ⟨lat', count', last', ver'⟩)

/-- Process one parsed line: a non-mapping JSON value makes
`rec.get(...)` raise `AttributeError`, caught only by the endpoint's
outer handler — the whole aggregation aborts. -/
def stepRec (agg : AggState) (rec : Json) : Except Unit AggState :=
  match rec with
  | .obj fs =>
    let key := pidOf fs
    if hashable key then aggFold agg key fs else .error ()
  | _ => .error ()

/-- One iteration of the loop over the log's lines (lines 260–268):
strip, skip blank lines, skip lines that fail `json.loads`. -/
def stepLine (agg : AggState) (line : Str) : Except Unit AggState :=
  let l := pyStrip line
  if l.isEmpty then .ok agg
  else
    match loads l with
    | none => .ok agg
    | some rec => stepRec agg rec

/-- The final per-identifier summary (lines 296–304); the mean is
`statistics.mean`, the sum divided by the length. -/
structure Summary where
  count : Nat
  avg_latency_ms : Option ℚ
  last_seen : Option Json
  latest_version : Option Json
deriving DecidableEq

def summarize (b : RawBucket) : Summary :=
  ⟨b.count,
   if b.latencies.isEmpty then none
   else some (b.latencies.sum / (b.latencies.length : ℚ)),
   b.last_seen, b.latest_version⟩

/-- The loop over all lines of the log. -/
def aggLines (lines : List Str) : Except Unit AggState :=
  lines.foldlM stepLine []

/-- `api_metrics` (lines 241–306): `none` is a nonexistent log file
(the endpoint returns an empty metrics mapping with a note); `.error`
is the catch-all 500 response. -/
def api_metrics (file : Option Str) : Except Unit (List (Json × Summary)) :=
  match file with
  | none => .ok []
  | some content =>
    match aggLines (splitLines content) with
    | .error e => .error e
    | .ok agg => .ok (agg.map (fun p => (p.1, summarize p.2)))

def metricsGet (m : List (Json × Summary)) (k : Json) : Option Summary :=
  (m.find? (fun p => p.1 == k)).map (fun p => p.2)

instance {ε α : Type} [DecidableEq ε] [DecidableEq α] : DecidableEq (Except ε α) := fun x y =>
  match x, y with
  | .ok a, .ok b => decidable_of_iff (a = b) (by simp)
  | .error a, .error b => decidable_of_iff (a = b) (by simp)
  | .ok _, .error _ => isFalse (by simp)
  | .error _, .ok _ => isFalse (by simp)

example : api_metrics none = .ok [] := by decide
example : api_metrics (some []) = .ok [] := by decide

theorem svLe_refl (k : List Nat) : svLe k k = true := by
  have := svLe_total k k
  simpa using this

theorem regGet_map_sort (reg : Registry) (pid : Str) :
    regGet (reg.map (fun g => (g.1, sortGroup g.2))) pid =
      (regGet reg pid).map sortGroup := by
  induction reg with
  | nil => rfl
  | cons p ps ih =>
    obtain ⟨k, v⟩ := p
    unfold regGet
    by_cases h : k = pid
    · subst h
      simp [List.find?_cons]
    · simp only [List.map_cons, List.find?_cons]
      have hd : (decide (k = pid)) = false := by simp [h]
      simp only [hd]
      exact ih

theorem regGet_some_mem {reg : Registry} {pid : Str} {g : List Entry}
    (h : regGet reg pid = some g) : (pid, g) ∈ reg := by
  unfold regGet at h
  cases hf : reg.find? (fun p => p.1 = pid) with
  | none => rw [hf] at h; simp at h
  | some p =>
    rw [hf] at h
    simp only [Option.map_some', Option.some.injEq] at h
    have hmem := List.mem_of_find?_eq_some hf
    have hpred := List.find?_some hf
    simp only [decide_eq_true_eq] at hpred
    obtain ⟨k, v⟩ := p
    simp only at hpred h
    subst hpred; subst h
    exact hmem

theorem mem_indexAdd {idx : Registry} {pid : Str} {e : Entry} {p : Str × List Entry}
    (hp : p ∈ indexAdd idx pid e) :
    p ∈ idx ∨ (p.1 = pid ∧ p.2 ≠ []) := by
  unfold indexAdd at hp
  by_cases hsome : (regGet idx pid).isSome
  · rw [if_pos hsome] at hp
    obtain ⟨q, hq, hpq⟩ := List.mem_map.mp hp
    by_cases hk : q.1 = pid
    · right
      rw [if_pos hk] at hpq
      subst hpq
      exact ⟨hk, by simp⟩
    · left
      rw [if_neg hk] at hpq
      subst hpq
      exact hq
  · rw [if_neg hsome] at hp
    rcases List.mem_append.mp hp with h | h
    · exact Or.inl h
    · right
      simp only [List.mem_singleton] at h
      subst h
      exact ⟨rfl, by simp⟩

theorem loadStep_none (idx : Registry) : loadStep idx none = idx := rfl

theorem loadStep_some (data : List (Str × Json)) (idx : Registry) :
    loadStep idx (some data) =
      if data.isEmpty = true then idx
      else
        match dictGet data ("prompt_id".toList) with
        | none => idx
        | some pv => indexAdd idx (pyStr pv) (mkEntry data) := rfl

theorem loadStep_empty {data : List (Str × Json)} (h : data.isEmpty = true)
    (idx : Registry) : loadStep idx (some data) = idx := by
  rw [loadStep_some, if_pos h]

theorem loadStep_nokey {data : List (Str × Json)} (h1 : data.isEmpty = false)
    (h2 : dictGet data ("prompt_id".toList) = none) (idx : Registry) :
    loadStep idx (some data) = idx := by
  rw [loadStep_some, if_neg (by simp [h1]), h2]

theorem loadStep_key {data : List (Str × Json)} {pv : Json}
    (h1 : data.isEmpty = false) (h2 : dictGet data ("prompt_id".toList) = some pv)
    (idx : Registry) :
    loadStep idx (some data) = indexAdd idx (pyStr pv) (mkEntry data) := by
  rw [loadStep_some, if_neg (by simp [h1]), h2]

/-- Every pair the raw index ever holds is keyed by the stringified
`prompt_id` of some successfully parsed document that declared the key,
and its entry list is nonempty. -/
theorem rawIndex_mem : ∀ (docs : List (Option (List (Str × Json)))) (p : Str × List Entry),
    p ∈ rawIndex docs →
    (∃ data v, some data ∈ docs ∧ dictGet data ("prompt_id".toList) = some v ∧
      p.1 = pyStr v) ∧ p.2 ≠ [] := by
  have key : ∀ (docs : List (Option (List (Str × Json)))) (idx0 : Registry)
      (p : Str × List Entry),
      p ∈ docs.foldl loadStep idx0 →
      p ∈ idx0 ∨
        ((∃ data v, some data ∈ docs ∧ dictGet data ("prompt_id".toList) = some v ∧
          p.1 = pyStr v) ∧ p.2 ≠ []) := by
    intro docs
    induction docs with
    | nil => intro idx0 p hp; exact Or.inl hp
    | cons d ds ih =>
      intro idx0 p hp
      rw [List.foldl_cons] at hp
      rcases ih _ p hp with hbase | hnew
      · cases d with
        | none => exact Or.inl (by rwa [loadStep_none] at hbase)
        | some data =>
          cases hemp : data.isEmpty with
          | true => rw [loadStep_empty hemp] at hbase; exact Or.inl hbase
          | false =>
            cases hpid : dictGet data ("prompt_id".toList) with
            | none => rw [loadStep_nokey hemp hpid] at hbase; exact Or.inl hbase
            | some pv =>
              rw [loadStep_key hemp hpid] at hbase
              rcases mem_indexAdd hbase with h | ⟨h1, h2⟩
              · exact Or.inl h
              · exact Or.inr ⟨⟨data, pv, by simp, hpid, h1⟩, h2⟩
      · obtain ⟨⟨data, v, hd, hk, hpy⟩, hne⟩ := hnew
        exact Or.inr ⟨⟨data, v, List.mem_cons_of_mem _ hd, hk, hpy⟩, hne⟩
  intro docs p hp
  rcases key docs [] p hp with h | h
  · simp at h
  · exact h

/-- `regGet` after the sorting pass of `_load_prompts`. -/
theorem regGet_load (docs : List (Option (List (Str × Json)))) (pid : Str) :
    regGet (load_prompts docs) pid = (regGet (rawIndex docs) pid).map sortGroup := by
  unfold load_prompts
  induction rawIndex docs with
  | nil => rfl
  | cons p ps ih =>
    obtain ⟨k, v⟩ := p
    unfold regGet
    by_cases h : k = pid
    · subst h
      simp [List.find?_cons]
    · simp only [List.map_cons, List.find?_cons]
      have hd : (decide (k = pid)) = false := by simp [h]
      simp only [hd]
      exact ih

theorem sortGroup_perm (l : List Entry) : (sortGroup l).Perm l := by
  unfold sortGroup
  by_cases h : l.all (fun e => (svKeyOf e).isSome)
  · rw [if_pos h]; exact isort_perm _ l
  · rw [if_neg h]; exact isort_perm _ l

/-- C2: with an explicit version, `get_prompt` returns exactly an entry
whose version string equals the request byte for byte (so `"1.0"` and
`"1.0.0"` are distinct), and raises `KeyError` precisely when the
identifier is absent or no entry's version string matches. -/
theorem C2_resolve_exact_version (reg : Registry) (pid v : Str) :
    (get_prompt reg pid (some v) = none ↔
      regGet reg pid = none ∨
        ∃ g, regGet reg pid = some g ∧ ∀ e ∈ g, verMatchStr e ≠ v) ∧
    (∀ e, get_prompt reg pid (some v) = some e →
      ∃ g, regGet reg pid = some g ∧ e ∈ g ∧ verMatchStr e = v) := by
  cases hreg : regGet reg pid with
  | none =>
    constructor
    · simp [get_prompt, hreg]
    · intro e he
      rw [get_prompt, hreg] at he
      simp at he
  | some g =>
    constructor
    · rw [get_prompt, hreg]
      simp only [Option.some.injEq, reduceCtorEq, false_or]
      constructor
      · intro hfind
        refine ⟨g, rfl, ?_⟩
        intro e he hv
        have := List.find?_eq_none.mp hfind e he
        simp [hv] at this
      · rintro ⟨g', hg', hall⟩
        cases hg'
        apply List.find?_eq_none.mpr
        intro e he
        simpa using hall e he
    · intro e he
      rw [get_prompt, hreg] at he
      refine ⟨g, rfl, List.mem_of_find?_eq_some he, ?_⟩
      have := List.find?_some he
      simpa using this

/-- C1: with no version requested, `get_prompt` returns the first entry
of the identifier's group as sorted at load time; when every version in
the group parses as a release, that first entry is semantic-version
maximal among the group's entries. -/
theorem C1_resolve_default (docs : List (Option (List (Str × Json)))) (pid : Str)
    (g : List Entry) (hg : regGet (load_prompts docs) pid = some g) :
    ∃ e, g.head? = some e ∧ get_prompt (load_prompts docs) pid none = some e ∧
      ((∀ x ∈ g, (svKeyOf x).isSome) →
        ∀ x ∈ g, svLe ((svKeyOf x).getD []) ((svKeyOf e).getD []) = true) := by
  -- the group is the sorted image of a nonempty raw group
  have hload := regGet_load docs pid
  rw [hg] at hload
  obtain ⟨raw, hraw, hgsort⟩ : ∃ raw, regGet (rawIndex docs) pid = some raw ∧
      g = sortGroup raw := by
    cases hcase : regGet (rawIndex docs) pid with
    | none => rw [hcase] at hload; simp at hload
    | some raw =>
      rw [hcase] at hload
      simp only [Option.map_some'] at hload
      exact ⟨raw, rfl, Option.some.inj hload⟩
  have hperm : g.Perm raw := by rw [hgsort]; exact sortGroup_perm raw
  have hrawne : raw ≠ [] := (rawIndex_mem docs _ (regGet_some_mem hraw)).2
  have hgne : g ≠ [] := by
    intro hcontra
    subst hcontra
    exact hrawne (List.Perm.nil_eq hperm).symm
  obtain ⟨e, tl, hghead⟩ : ∃ e tl, g = e :: tl := by
    cases hcase : g with
    | nil => exact absurd hcase hgne
    | cons e tl => exact ⟨e, tl, rfl⟩
  refine ⟨e, by rw [hghead]; rfl, ?_, ?_⟩
  · rw [get_prompt, hg, hghead]; rfl
  · intro hall x hx
    -- all versions parse, so the load-time sort used the release order
    have hallraw : raw.all (fun e => (svKeyOf e).isSome) = true := by
      rw [List.all_eq_true]
      intro y hy
      exact hall y (hperm.mem_iff.mpr hy)
    have hsorted : g.Pairwise
        (fun a b => svLe ((svKeyOf b).getD []) ((svKeyOf a).getD []) = true) := by
      rw [hgsort]
      unfold sortGroup
      rw [if_pos hallraw]
      exact isort_pairwise (fun a b => svLe ((svKeyOf b).getD []) ((svKeyOf a).getD []))
        (fun a b c h1 h2 => svLe_trans _ _ _ h2 h1)
        (fun a b => svLe_total ((svKeyOf b).getD []) ((svKeyOf a).getD []))
        raw
    rw [hghead] at hx hsorted
    rcases List.mem_cons.mp hx with hx | hx
    · subst hx; exact svLe_refl _
    · exact (List.pairwise_cons.mp hsorted).1 x hx

/-- C9 (amended): the load-time sort of each identifier's group — a
permutation of the raw group, descending by release comparison of
`str(x.get("version", "0.0.0"))` when every such key parses, otherwise
descending by lexical comparison of `str(x.get("version", ""))`
(CPython's `list.sort` computes all keys before moving anything, so the
`except` branch sorts the original order); an entry without a `version`
key is keyed `"0.0.0"` for the semantic sort but as the *empty string*
in the lexical fallback. -/
theorem C9_load_sort (docs : List (Option (List (Str × Json)))) (pid : Str)
    (g : List Entry) (hg : regGet (load_prompts docs) pid = some g) :
    ∃ raw, regGet (rawIndex docs) pid = some raw ∧ g.Perm raw ∧
      ((∀ x ∈ raw, (svKeyOf x).isSome) →
        g.Pairwise (fun a b => svLe ((svKeyOf b).getD []) ((svKeyOf a).getD []) = true)) ∧
      ((¬ ∀ x ∈ raw, (svKeyOf x).isSome) →
        g.Pairwise (fun a b => lexLe (verFallbackStr b) (verFallbackStr a) = true)) ∧
      (∀ e ∈ g, e.lookup ("version".toList) = none →
        verSortStr e = "0.0.0".toList ∧ verFallbackStr e = []) := by
  have hload := regGet_load docs pid
  rw [hg] at hload
  obtain ⟨raw, hraw, hgsort⟩ : ∃ raw, regGet (rawIndex docs) pid = some raw ∧
      g = sortGroup raw := by
    cases hcase : regGet (rawIndex docs) pid with
    | none => rw [hcase] at hload; simp at hload
    | some raw =>
      rw [hcase] at hload
      simp only [Option.map_some'] at hload
      exact ⟨raw, rfl, Option.some.inj hload⟩
  refine ⟨raw, hraw, by rw [hgsort]; exact sortGroup_perm raw, ?_, ?_, ?_⟩
  · intro hall
    have hallraw : raw.all (fun e => (svKeyOf e).isSome) = true := by
      rw [List.all_eq_true]; exact hall
    rw [hgsort]
    unfold sortGroup
    rw [if_pos hallraw]
    exact isort_pairwise (fun a b => svLe ((svKeyOf b).getD []) ((svKeyOf a).getD []))
      (fun a b c h1 h2 => svLe_trans _ _ _ h2 h1)
      (fun a b => svLe_total ((svKeyOf b).getD []) ((svKeyOf a).getD []))
      raw
  · intro hnall
    have hallraw : raw.all (fun e => (svKeyOf e).isSome) = false := by
      rw [Bool.eq_false_iff]
      intro hcontra
      exact hnall (List.all_eq_true.mp hcontra)
    rw [hgsort]
    unfold sortGroup
    rw [if_neg (by simp [hallraw])]
    exact isort_pairwise (fun a b => lexLe (verFallbackStr b) (verFallbackStr a))
      (fun a b c h1 h2 => lexLe_trans _ _ _ h2 h1)
      (fun a b => lexLe_total (verFallbackStr b) (verFallbackStr a))
      raw
  · intro e _ hnone
    constructor
    · rw [verSortStr, hnone]
      rfl
    · rw [verFallbackStr, hnone]
      rfl

/-- C8 counterexample: a document whose `prompt_id` is present but
*empty* is **not** rejected — it enters the registry under the empty
identifier (the load check only tests falsiness of the document and
presence of the key, line 52). -/
theorem C8_counterexample :
    regGet (load_prompts [some [("prompt_id".toList, Json.str [])]]) [] =
      some [mkEntry [("prompt_id".toList, Json.str [])]] := by
  decide

/-- Every entry of a group after `indexAdd` was already in some group of
the old index carrying the same key, or is the entry just added under
the added key. -/
theorem entry_mem_indexAdd {idx : Registry} {pid : Str} {ent : Entry}
    {p : Str × List Entry} (hp : p ∈ indexAdd idx pid ent) :
    ∀ e ∈ p.2, (∃ q ∈ idx, q.1 = p.1 ∧ e ∈ q.2) ∨ (p.1 = pid ∧ e = ent) := by
  intro e he
  unfold indexAdd at hp
  by_cases hsome : (regGet idx pid).isSome
  · rw [if_pos hsome] at hp
    obtain ⟨q0, hq0, hpq⟩ := List.mem_map.mp hp
    by_cases hk : q0.1 = pid
    · rw [if_pos hk] at hpq
      subst hpq
      simp only at he
      rcases List.mem_append.mp he with h | h
      · exact Or.inl ⟨q0, hq0, rfl, h⟩
      · simp only [List.mem_singleton] at h
        subst h
        exact Or.inr ⟨hk, rfl⟩
    · rw [if_neg hk] at hpq
      subst hpq
      exact Or.inl ⟨q0, hq0, rfl, he⟩
  · rw [if_neg hsome] at hp
    rcases List.mem_append.mp hp with h | h
    · exact Or.inl ⟨p, h, rfl, he⟩
    · simp only [List.mem_singleton] at h
      subst h
      simp only [List.mem_singleton] at he
      exact Or.inr ⟨rfl, he⟩

/-- Per-entry provenance in the raw index: every entry of every group is
`mkEntry` of a truthy document of the input that declared `prompt_id`,
and the group's key is the stringified declared value. -/
theorem rawIndex_entry_mem : ∀ (docs : List (Option (List (Str × Json))))
    (p : Str × List Entry), p ∈ rawIndex docs → ∀ e ∈ p.2,
    ∃ data v, some data ∈ docs ∧ data.isEmpty = false ∧
      dictGet data ("prompt_id".toList) = some v ∧ p.1 = pyStr v ∧
      e = mkEntry data := by
  have key : ∀ (docs : List (Option (List (Str × Json)))) (idx0 : Registry)
      (p : Str × List Entry), p ∈ docs.foldl loadStep idx0 → ∀ e ∈ p.2,
      (∃ q ∈ idx0, q.1 = p.1 ∧ e ∈ q.2) ∨
      (∃ data v, some data ∈ docs ∧ data.isEmpty = false ∧
        dictGet data ("prompt_id".toList) = some v ∧ p.1 = pyStr v ∧
        e = mkEntry data) := by
    intro docs
    induction docs with
    | nil => intro idx0 p hp e he; exact Or.inl ⟨p, hp, rfl, he⟩
    | cons d ds ih =>
      intro idx0 p hp e he
      rw [List.foldl_cons] at hp
      rcases ih (loadStep idx0 d) p hp e he with
        ⟨q, hq, hq1, hqe⟩ | ⟨data, v, hd, hne, hk, hpy, hee⟩
      · cases d with
        | none =>
          rw [loadStep_none] at hq
          exact Or.inl ⟨q, hq, hq1, hqe⟩
        | some data =>
          cases hemp : data.isEmpty with
          | true =>
            rw [loadStep_empty hemp] at hq
            exact Or.inl ⟨q, hq, hq1, hqe⟩
          | false =>
            cases hpid : dictGet data ("prompt_id".toList) with
            | none =>
              rw [loadStep_nokey hemp hpid] at hq
              exact Or.inl ⟨q, hq, hq1, hqe⟩
            | some pv =>
              rw [loadStep_key hemp hpid] at hq
              rcases entry_mem_indexAdd hq e hqe with ⟨q2, hq2, hq21, hq2e⟩ | ⟨h1, h2⟩
              · exact Or.inl ⟨q2, hq2, hq21.trans hq1, hq2e⟩
              · exact Or.inr ⟨data, pv, by simp, hemp, hpid, by rw [← hq1, h1], h2⟩
      · exact Or.inr ⟨data, v, List.mem_cons_of_mem _ hd, hne, hk, hpy, hee⟩
  intro docs p hp e he
  rcases key docs [] p hp e he with ⟨q, hq, _, _⟩ | h
  · simp at hq
  · exact h

/-- C8 (amended): every Definition in the registry came from a truthy
document of the input that declared the `prompt_id` key — the entry is
exactly that document after the `setdefault`s, filed under `str` of the
declared value — and a document that is falsy or lacks the key
contributes no entry at all: loading without it yields the identical
registry.  The declared value may however stringify to the *empty*
identifier, which is accepted (see the counterexample). -/
theorem C8_amended :
    (∀ (docs : List (Option (List (Str × Json)))) (pid : Str) (g : List Entry),
      regGet (load_prompts docs) pid = some g → ∀ e ∈ g,
      ∃ data v, some data ∈ docs ∧ data.isEmpty = false ∧
        dictGet data ("prompt_id".toList) = some v ∧ pyStr v = pid ∧
        e = mkEntry data) ∧
    (∀ (pre post : List (Option (List (Str × Json))))
      (bad : Option (List (Str × Json))),
      (bad = none ∨ ∃ data, bad = some data ∧ (data.isEmpty = true ∨
        dictGet data ("prompt_id".toList) = none)) →
      load_prompts (pre ++ bad :: post) = load_prompts (pre ++ post)) := by
  constructor
  · intro docs pid g hg e he
    have hload := regGet_load docs pid
    rw [hg] at hload
    obtain ⟨raw, hraw, hgsort⟩ : ∃ raw, regGet (rawIndex docs) pid = some raw ∧
        g = sortGroup raw := by
      cases hcase : regGet (rawIndex docs) pid with
      | none => rw [hcase] at hload; simp at hload
      | some raw =>
        rw [hcase] at hload
        simp only [Option.map_some'] at hload
        exact ⟨raw, rfl, Option.some.inj hload⟩
    have heraw : e ∈ raw := by
      have hperm : g.Perm raw := by rw [hgsort]; exact sortGroup_perm raw
      exact hperm.mem_iff.mp he
    obtain ⟨data, v, hd, hne, hk, hpy, hee⟩ :=
      rawIndex_entry_mem docs _ (regGet_some_mem hraw) e heraw
    exact ⟨data, v, hd, hne, hk, hpy.symm, hee⟩
  · intro pre post bad h
    have hskip : ∀ idx : Registry, loadStep idx bad = idx := by
      intro idx
      rcases h with h | ⟨data, hbad, hrej⟩
      · rw [h, loadStep_none]
      · subst hbad
        rcases hrej with hrej | hrej
        · exact loadStep_empty hrej idx
        · cases hemp : data.isEmpty with
          | true => exact loadStep_empty hemp idx
          | false => exact loadStep_nokey hemp hrej idx
    have hraw : rawIndex (pre ++ bad :: post) = rawIndex (pre ++ post) := by
      unfold rawIndex
      rw [List.foldl_append, List.foldl_append, List.foldl_cons, hskip]
    unfold load_prompts
    rw [hraw]

theorem dictGet_cons (p : Str × Json) (d : List (Str × Json)) (k : Str) :
    dictGet (p :: d) k = if p.1 = k then some p.2 else dictGet d k := by
  unfold dictGet
  by_cases h : p.1 = k
  · simp [List.find?_cons, h]
  · simp [List.find?_cons, h]

theorem dictGet_map_set : ∀ (d : List (Str × Json)) (k : Str) (v : Json),
    (dictGet d k).isSome = true →
    dictGet (d.map (fun p => if p.1 = k then (k, v) else p)) k = some v := by
  intro d k v
  induction d with
  | nil => intro h; simp [dictGet] at h
  | cons p ps ih =>
    intro h
    rw [List.map_cons]
    by_cases hp : p.1 = k
    · rw [if_pos hp, dictGet_cons]
      simp
    · rw [if_neg hp, dictGet_cons, if_neg hp]
      apply ih
      rw [dictGet_cons, if_neg hp] at h
      exact h

theorem dictGet_append_single : ∀ (d : List (Str × Json)) (k : Str) (v : Json),
    dictGet d k = none → dictGet (d ++ [(k, v)]) k = some v := by
  intro d k v
  induction d with
  | nil => intro _; simp [dictGet, List.find?_cons]
  | cons p ps ih =>
    intro h
    rw [dictGet_cons] at h
    by_cases hp : p.1 = k
    · rw [if_pos hp] at h; simp at h
    · rw [if_neg hp] at h
      rw [List.cons_append, dictGet_cons, if_neg hp]
      exact ih h

/-- `d[k] = v` makes `d.get(k)` return `v`. -/
theorem dictGet_dictSet_self (d : List (Str × Json)) (k : Str) (v : Json) :
    dictGet (dictSet d k v) k = some v := by
  unfold dictSet
  by_cases hs : (dictGet d k).isSome
  · rw [if_pos hs]
    exact dictGet_map_set d k v hs
  · rw [if_neg hs]
    apply dictGet_append_single
    cases hd : dictGet d k with
    | none => rfl
    | some w => rw [hd] at hs; simp at hs

theorem aggGet_cons (p : Json × RawBucket) (s : AggState) (k : Json) :
    aggGet (p :: s) k = if p.1 == k then some p.2 else aggGet s k := by
  unfold aggGet
  by_cases h : (p.1 == k) = true
  · simp [List.find?_cons, h]
  · simp only [Bool.not_eq_true] at h
    simp [List.find?_cons, h]

theorem aggGet_map_set : ∀ (s : AggState) (k : Json) (b : RawBucket),
    (aggGet s k).isSome = true →
    aggGet (s.map (fun p => if p.1 == k then (k, b) else p)) k = some b := by
  intro s k b
  induction s with
  | nil => intro h; simp [aggGet] at h
  | cons p ps ih =>
    intro h
    rw [List.map_cons]
    by_cases hp : (p.1 == k) = true
    · rw [if_pos hp, aggGet_cons]
      simp
    · rw [if_neg hp, aggGet_cons, if_neg hp]
      apply ih
      rw [aggGet_cons, if_neg hp] at h
      exact h

theorem aggGet_append_single : ∀ (s : AggState) (k : Json) (b : RawBucket),
    aggGet s k = none → aggGet (s ++ [(k, b)]) k = some b := by
  intro s k b
  induction s with
  | nil => intro _; simp [aggGet, List.find?_cons]
  | cons p ps ih =>
    intro h
    rw [aggGet_cons] at h
    by_cases hp : (p.1 == k) = true
    · rw [if_pos hp] at h; simp at h
    · rw [if_neg hp] at h
      rw [List.cons_append, aggGet_cons, if_neg hp]
      exact ih h

/-- Writing a bucket back makes the `defaultdict` lookup return it. -/
theorem aggGet_aggSet_self (s : AggState) (k : Json) (b : RawBucket) :
    aggGet (aggSet s k b) k = some b := by
  unfold aggSet
  by_cases hs : (aggGet s k).isSome
  · rw [if_pos hs]
    exact aggGet_map_set s k b hs
  · rw [if_neg hs]
    apply aggGet_append_single
    cases hd : aggGet s k with
    | none => rfl
    | some w => rw [hd] at hs; simp at hs

theorem tmplVars_cons_var (w : Str) (rest : List TmplPart) :
    tmplVars (.var w :: rest) = w :: tmplVars rest := rfl

/-- The rendered string when every referenced variable is bound: each
placeholder is replaced by `str` of the bound value (`Json.null` is an
unreachable filler for the `getD`). -/
def substParts (parts : List TmplPart) (vars : List (Str × Json)) : Str :=
  match parts with
  | [] => []
  | .lit c :: rest => c :: substParts rest vars
  | .var v :: rest => pyStr ((dictGet vars v).getD Json.null) ++ substParts rest vars

/-- `renderParts` either renders every placeholder from a binding — in
which case all referenced variables are bound — or raises on a
referenced, unbound variable, naming it. -/
theorem renderParts_spec : ∀ (parts : List TmplPart) (vars : List (Str × Json)),
    (renderParts parts vars = .ok (substParts parts vars) ∧
      ∀ v ∈ tmplVars parts, (dictGet vars v).isSome) ∨
    (∃ v, renderParts parts vars = .error v ∧ v ∈ tmplVars parts ∧
      dictGet vars v = none) := by
  intro parts vars
  induction parts with
  | nil => left; exact ⟨rfl, by simp [tmplVars]⟩
  | cons p rest ih =>
    cases p with
    | lit c =>
      rcases ih with ⟨hok, hall⟩ | ⟨v, herr, hmem, hnone⟩
      · left
        constructor
        · simp only [renderParts, hok, Except.map]
          rfl
        · simpa [tmplVars] using hall
      · right
        refine ⟨v, ?_, by simpa [tmplVars] using hmem, hnone⟩
        simp only [renderParts, herr, Except.map]
    | var w =>
      cases hw : dictGet vars w with
      | none =>
        right
        refine ⟨w, ?_, by simp [tmplVars], hw⟩
        simp only [renderParts, hw]
      | some jv =>
        rcases ih with ⟨hok, hall⟩ | ⟨v, herr, hmem, hnone⟩
        · left
          constructor
          · simp only [renderParts, hw, hok, Except.map, substParts]
            rfl
          · intro v hv
            have hv2 : v = w ∨ v ∈ tmplVars rest := by
              simpa [tmplVars] using hv
            rcases hv2 with h | h
            · subst h; simp [hw]
            · exact hall v h
        · right
          refine ⟨v, ?_, ?_, hnone⟩
          · simp only [renderParts, hw, herr, Except.map]
          · rw [tmplVars_cons_var]
            exact List.mem_cons_of_mem _ hmem

/-- C3: for a resolvable definition whose template body parses,
rendering fails exactly when the template references a variable absent
from the supplied inputs — the error names a missing referenced
variable — and when every referenced variable is bound it returns the
fully substituted string, each placeholder replaced by the bound value
(never a default or empty-string substitute). -/
theorem C3_render_strict (reg : Registry) (pid : Str) (inputs : List (Str × Json))
    (ver : Option Str) (e : Entry) (tpl : Str) (parts : List TmplPart)
    (he : get_prompt reg pid ver = some e)
    (htpl : Entry.lookup e ("template".toList) = some (Json.str tpl))
    (hparse : parseTmpl tpl = some parts) :
    ((∃ v ∈ tmplVars parts, dictGet inputs v = none) ↔
      (∃ v, render_prompt reg pid inputs ver = .error (.undefinedVar v) ∧
        v ∈ tmplVars parts ∧ dictGet inputs v = none)) ∧
    ((∀ v ∈ tmplVars parts, (dictGet inputs v).isSome) →
      render_prompt reg pid inputs ver = .ok (substParts parts inputs)) := by
  have hrp : render_prompt reg pid inputs ver =
      match renderParts parts inputs with
      | .error v => .error (.undefinedVar v)
      | .ok s => .ok s := by
    simp only [render_prompt, he, htpl, hparse]
  rcases renderParts_spec parts inputs with ⟨hok, hall⟩ | ⟨v, herr, hmem, hnone⟩
  · constructor
    · constructor
      · rintro ⟨w, hw, hwnone⟩
        have := hall w hw
        rw [hwnone] at this
        simp at this
      · rintro ⟨w, _, hw, hwnone⟩
        exact ⟨w, hw, hwnone⟩
    · intro _
      rw [hrp, hok]
  · constructor
    · constructor
      · intro _
        refine ⟨v, ?_, hmem, hnone⟩
        rw [hrp, herr]
      · rintro ⟨w, _, hw, hwnone⟩
        exact ⟨w, hw, hwnone⟩
    · intro hall
      have := hall v hmem
      rw [hnone] at this
      simp at this

def tplC3 : Str := "Hi \x7b\x7bx\x7d\x7d".toList

def eC3 : Entry := ⟨[("template".toList, Json.str tplC3)]⟩

def regC3 : Registry := [(['a'], [eC3])]

def partsC3 : List TmplPart := [.lit 'H', .lit 'i', .lit ' ', .var ['x']]

def inputsC3 : List (Str × Json) := [(['x'], Json.str ['y'])]

theorem C3_witness :
    get_prompt regC3 ['a'] none = some eC3 ∧
    Entry.lookup eC3 ("template".toList) = some (Json.str tplC3) ∧
    parseTmpl tplC3 = some partsC3 ∧
    (((∃ v ∈ tmplVars partsC3, dictGet inputsC3 v = none) ↔
      (∃ v, render_prompt regC3 ['a'] inputsC3 none = .error (.undefinedVar v) ∧
        v ∈ tmplVars partsC3 ∧ dictGet inputsC3 v = none)) ∧
     ((∀ v ∈ tmplVars partsC3, (dictGet inputsC3 v).isSome) →
      render_prompt regC3 ['a'] inputsC3 none = .ok (substParts partsC3 inputsC3))) :=
  ⟨by decide, by decide, by decide,
   C3_render_strict regC3 ['a'] inputsC3 none eC3 tplC3 partsC3
     (by decide) (by decide) (by decide)⟩

/-- C4: every call to `log_usage` appends exactly one serialised record
line to the log and returns that record (it never fails); when
`(prompt_id, version)` does not resolve, the record's metadata carries
`" prompt metadata not found."` under `validation_error`; when it
resolves and the response violates a truthy schema with a non-empty
error string, that string is attached under the same key. -/
theorem C4_log_always_appends (validate : Json → Json → Option Str) (reg : Registry)
    (now pid ver : Str) (inp resp : Json) (lat : Int × Nat)
    (md : Option (List (Str × Json))) (log : Str) :
    (log_usage validate reg now pid ver inp resp lat md log).2 =
      log ++ dumps (recordToJson
        (log_usage validate reg now pid ver inp resp lat md log).1) ++ ['\n'] ∧
    (get_prompt reg pid (some ver) = none →
      dictGet (log_usage validate reg now pid ver inp resp lat md log).1.metadata
          ("validation_error".toList) =
        some (Json.str (" prompt metadata not found.".toList))) ∧
    (∀ e schema s, get_prompt reg pid (some ver) = some e →
      Entry.lookup e ("expected_output_schema".toList) = some schema →
      truthy schema = true → validate schema resp = some s → s ≠ [] →
      dictGet (log_usage validate reg now pid ver inp resp lat md log).1.metadata
          ("validation_error".toList) = some (Json.str s)) := by
  refine ⟨rfl, ?_, ?_⟩
  · intro h
    simp only [log_usage, h]
    rw [if_neg (by decide)]
    exact dictGet_dictSet_self _ _ _
  · intro e schema s he hs ht hv hne
    have hse : ¬ (s.isEmpty = true) := by
      cases s with
      | nil => exact absurd rfl hne
      | cons a t => simp
    simp only [log_usage, he, hs, ht, if_true, hv]
    rw [if_neg hse]
    exact dictGet_dictSet_self _ _ _

/-- C5: writing one usage record and reading the log back yields that
exact record — the line appended by `log_usage` parses back to the very
JSON object written, and reading its fields reproduces every field of
the returned record (timestamp, prompt_id, version, input, response,
latency_ms, metadata). -/
theorem C5_round_trip (validate : Json → Json → Option Str) (reg : Registry)
    (now pid ver : Str) (inp resp : Json) (lat : Int × Nat)
    (md : Option (List (Str × Json))) (log : Str) (hwf : logWf log) :
    parsedRecords (log_usage validate reg now pid ver inp resp lat md log).2 =
      parsedRecords log ++
        [recordToJson (log_usage validate reg now pid ver inp resp lat md log).1] ∧
    recordOfJson
        (recordToJson (log_usage validate reg now pid ver inp resp lat md log).1) =
      some (log_usage validate reg now pid ver inp resp lat md log).1 := by
  constructor
  · exact parsedRecords_append log hwf _
  · exact recordOfJson_toJson _

theorem C5_witness :
    logWf [] ∧
    (parsedRecords (log_usage (fun _ _ => none) [] [] ['a'] ['1'] Json.null Json.null
        (10, 0) none []).2 =
      parsedRecords [] ++
        [recordToJson (log_usage (fun _ _ => none) [] [] ['a'] ['1'] Json.null Json.null
          (10, 0) none []).1] ∧
     recordOfJson (recordToJson (log_usage (fun _ _ => none) [] [] ['a'] ['1']
          Json.null Json.null (10, 0) none []).1) =
       some (log_usage (fun _ _ => none) [] [] ['a'] ['1'] Json.null Json.null
          (10, 0) none []).1) :=
  ⟨Or.inl rfl,
   C5_round_trip (fun _ _ => none) [] [] ['a'] ['1'] Json.null Json.null
     (10, 0) none [] (Or.inl rfl)⟩

/-- Every successful fold of a record increments the bucket's count
unconditionally and extends its latency list exactly when the record's
`latency_ms` is numeric (`Option.toList` is `[q]` / `[]`). -/
theorem aggFold_ok_spec (agg : AggState) (key : Json) (fs : List (Str × Json))
    (agg2 : AggState) (hok : aggFold agg key fs = .ok agg2) :
    ∃ b, aggGet agg2 key = some b ∧
      b.count = ((aggGet agg key).getD emptyBucket).count + 1 ∧
      b.latencies = ((aggGet agg key).getD emptyBucket).latencies ++
        (latencyNum (dictGet fs ("latency_ms".toList))).toList := by
  simp only [aggFold] at hok
  split at hok
  · simp at hok
  · have h2 := Except.ok.inj hok
    subst h2
    refine ⟨_, aggGet_aggSet_self _ _ _, rfl, ?_⟩
    cases hlat : latencyNum (dictGet fs ("latency_ms".toList)) with
    | none => simp [hlat, Option.toList]
    | some q => simp [hlat, Option.toList]

def logC6 : Str :=
  ("\x7b\"prompt_id\": \"A\", \"latency_ms\": 10\x7d\n" ++
   "\x7b\"prompt_id\": \"A\", \"latency_ms\": 20\x7d\n" ++
   "\x7b\"prompt_id\": \"A\", \"latency_ms\": 30\x7d\n").toList

unseal Rat.mul Rat.inv Rat.add Nat.gcd in
/-- C6: aggregation over a nonexistent or empty log yields an empty
mapping without failing; over three records for identifier `A` with
numeric latencies 10, 20, 30 it reports count 3 and mean latency 20;
and in general each folded record increments `count` unconditionally
while only numeric latencies enter the latency list behind the mean. -/
theorem C6_metrics_empty_and_mean :
    api_metrics none = .ok [] ∧
    api_metrics (some []) = .ok [] ∧
    api_metrics (some logC6) =
      .ok [(Json.str ['A'], ⟨3, some 20, none, none⟩)] ∧
    (∀ (agg : AggState) (key : Json) (fs : List (Str × Json)) (agg2 : AggState),
      aggFold agg key fs = .ok agg2 →
      ∃ b, aggGet agg2 key = some b ∧
        b.count = ((aggGet agg key).getD emptyBucket).count + 1 ∧
        b.latencies = ((aggGet agg key).getD emptyBucket).latencies ++
          (latencyNum (dictGet fs ("latency_ms".toList))).toList) := by
  refine ⟨by decide, by decide, by decide, ?_⟩
  intro agg key fs agg2 hok
  exact aggFold_ok_spec agg key fs agg2 hok

/-- A line that is blank after stripping, or fails `json.loads`, leaves
the aggregation state untouched. -/
theorem stepLine_skip {bad : Str}
    (h : pyStrip bad = [] ∨ loads (pyStrip bad) = none) (agg : AggState) :
    stepLine agg bad = .ok agg := by
  simp only [stepLine]
  rcases h with h | h
  · rw [if_pos (by simp [h])]
  · by_cases hb : (pyStrip bad).isEmpty
    · rw [if_pos hb]
    · rw [if_neg hb, h]

theorem foldlM_stepLine_skip : ∀ (pre : List Str) (bad : Str),
    (pyStrip bad = [] ∨ loads (pyStrip bad) = none) → ∀ (post : List Str)
    (init : AggState),
    (pre ++ bad :: post).foldlM stepLine init = (pre ++ post).foldlM stepLine init := by
  intro pre
  induction pre with
  | nil =>
    intro bad h post init
    rw [List.nil_append, List.nil_append, List.foldlM_cons, stepLine_skip h init]
    rfl
  | cons p ps ih =>
    intro bad h post init
    rw [List.cons_append, List.cons_append, List.foldlM_cons, List.foldlM_cons]
    cases hp : stepLine init p with
    | ok a => exact ih bad h post a
    | error e => rfl

def logC7 : Str :=
  ("\x7b\"prompt_id\": \"A\"\x7d\n" ++
   "not a record\n" ++
   "\x7b\"prompt_id\": \"A\"\x7d\n").toList

/-- C7 (amended): a line that is blank after stripping or that fails
JSON parsing is skipped without affecting the rest of the aggregation,
and on the spec's example log — two well-formed records for `A` around
the unparsable line `not a record` — the metrics report count 2 for
`A`.  (Well-formedness must include being a JSON *mapping*: see the
counterexample, where a line holding the JSON number `5` aborts the
whole aggregation.) -/
theorem C7_skip_malformed :
    (∀ (pre post : List Str) (bad : Str),
      (pyStrip bad = [] ∨ loads (pyStrip bad) = none) →
      aggLines (pre ++ bad :: post) = aggLines (pre ++ post)) ∧
    api_metrics (some logC7) = .ok [(Json.str ['A'], ⟨2, none, none, none⟩)] := by
  constructor
  · intro pre post bad h
    exact foldlM_stepLine_skip pre bad h post []
  · decide

/-- C7 counterexample: a line that parses as JSON but not as a mapping
is *not* skipped — `rec.get` raises `AttributeError`, which only the
endpoint's outer `try` catches, so the whole aggregation aborts (the
endpoint answers 500 and reports no counts at all). -/
theorem C7_counterexample :
    api_metrics (some (("\x7b\"prompt_id\": \"A\"\x7d\n" ++ "5\n" ++
        "\x7b\"prompt_id\": \"A\"\x7d\n").toList)) = .error () := by
  decide

def logC10 : Str :=
  ("\x7b\"latency_ms\": 10, \"timestamp\": \"T1\", \"version\": \"1.0.0\"\x7d\n").toList

unseal Rat.mul Rat.inv Rat.add Nat.gcd in
/-- C10: a parsed log record whose `prompt_id` is absent, `null` or the
empty string is not skipped — it is keyed under `"<unknown>"` and
folded exactly like any other record; concretely a record carrying only
a latency, a timestamp and a version contributes count 1, mean latency
10, `last_seen` and `latest_version` to the `<unknown>` bucket. -/
theorem C10_unknown_bucket (fs : List (Str × Json))
    (h : dictGet fs ("prompt_id".toList) = none ∨
      dictGet fs ("prompt_id".toList) = some Json.null ∨
      dictGet fs ("prompt_id".toList) = some (Json.str [])) :
    pidOf fs = Json.str ("<unknown>".toList) ∧
    (∀ agg : AggState, stepRec agg (Json.obj fs) =
      aggFold agg (Json.str ("<unknown>".toList)) fs) ∧
    api_metrics (some logC10) =
      .ok [(Json.str ("<unknown>".toList),
        ⟨1, some 10, some (Json.str ("T1".toList)),
         some (Json.str ("1.0.0".toList))⟩)] := by
  have hpid : pidOf fs = Json.str ("<unknown>".toList) := by
    unfold pidOf
    rcases h with h | h | h <;> rw [h] <;> rfl
  refine ⟨hpid, ?_, by decide⟩
  intro agg
  simp only [stepRec, hpid]
  rfl

theorem C10_witness :
    (dictGet ([] : List (Str × Json)) ("prompt_id".toList) = none ∨
      dictGet ([] : List (Str × Json)) ("prompt_id".toList) = some Json.null ∨
      dictGet ([] : List (Str × Json)) ("prompt_id".toList) = some (Json.str [])) ∧
    (pidOf [] = Json.str ("<unknown>".toList) ∧
     (∀ agg : AggState, stepRec agg (Json.obj []) =
       aggFold agg (Json.str ("<unknown>".toList)) []) ∧
     api_metrics (some logC10) =
       .ok [(Json.str ("<unknown>".toList),
         ⟨1, some 10, some (Json.str ("T1".toList)),
          some (Json.str ("1.0.0".toList))⟩)]) :=
  ⟨Or.inl rfl, C10_unknown_bucket [] (Or.inl rfl)⟩

def docsW : List (Option (List (Str × Json))) :=
  [some [("prompt_id".toList, Json.str ['a']), ("version".toList, Json.str ("2.0".toList))],
   some [("prompt_id".toList, Json.str ['a']), ("version".toList, Json.str ("10.0".toList))]]

def gW : List Entry :=
  [mkEntry [("prompt_id".toList, Json.str ['a']), ("version".toList, Json.str ("10.0".toList))],
   mkEntry [("prompt_id".toList, Json.str ['a']), ("version".toList, Json.str ("2.0".toList))]]

theorem C1_witness :
    regGet (load_prompts docsW) ['a'] = some gW ∧
    (∃ e, gW.head? = some e ∧ get_prompt (load_prompts docsW) ['a'] none = some e ∧
      ((∀ x ∈ gW, (svKeyOf x).isSome) →
        ∀ x ∈ gW, svLe ((svKeyOf x).getD []) ((svKeyOf e).getD []) = true)) :=
  ⟨by decide, C1_resolve_default docsW ['a'] gW (by decide)⟩

theorem C9_witness :
    regGet (load_prompts docsW) ['a'] = some gW ∧
    (∃ raw, regGet (rawIndex docsW) ['a'] = some raw ∧ gW.Perm raw ∧
      ((∀ x ∈ raw, (svKeyOf x).isSome) →
        gW.Pairwise (fun a b => svLe ((svKeyOf b).getD []) ((svKeyOf a).getD []) = true)) ∧
      ((¬ ∀ x ∈ raw, (svKeyOf x).isSome) →
        gW.Pairwise (fun a b => lexLe (verFallbackStr b) (verFallbackStr a) = true)) ∧
      (∀ e ∈ gW, Entry.lookup e ("version".toList) = none →
        verSortStr e = "0.0.0".toList ∧ verFallbackStr e = [])) :=
  ⟨by decide, C9_load_sort docsW ['a'] gW (by decide)⟩

def docsC9 : List (Option (List (Str × Json))) :=
  [some [("prompt_id".toList, Json.str ['a']), ("version".toList, Json.str ['0'])],
   some [("prompt_id".toList, Json.str ['a'])],
   some [("prompt_id".toList, Json.str ['a']), ("version".toList, Json.str ['!'])]]

def gC9 : List Entry :=
  [mkEntry [("prompt_id".toList, Json.str ['a']), ("version".toList, Json.str ['0'])],
   mkEntry [("prompt_id".toList, Json.str ['a']), ("version".toList, Json.str ['!'])],
   mkEntry [("prompt_id".toList, Json.str ['a'])]]

/-- C9 counterexample: versions `"0"`, *missing*, `"!"` under one
identifier — `"!"` forces the lexical fallback, whose key
`str(x.get("version", ""))` gives the missing version the *empty
string*, so the loaded order is `["0", "!", missing]`; it violates the
descending order the spec's `"0.0.0"`-defaulted key would demand
(`"0.0.0"` sorts above both `"0"` and `"!"`). -/
theorem C9_counterexample :
    regGet (load_prompts docsC9) ['a'] = some gC9 ∧
    ¬ gC9.Pairwise (fun a b => lexLe (verSortStr b) (verSortStr a) = true) := by
  constructor
  · decide
  · decide
